import Mathlib

/-!
Verification of the ledger projection engine of the budget repository
(src/app.js).  The engine consists of two pure functions,
`generateOccurrences` and `computeLedger`, together with the date helpers
`parseDateInput`, `toDateInputValue`, `addDays`, `addMonths` and
`daysInMonth` and the static table `frequencySteps`.

The embedding models a valid JavaScript `Date` by its UTC civil
components (year, 0-based month, day of month); the time value order of
two valid dates is the lexicographic order on those components.  An
invalid date (NaN time value) is a separate constructor: every JS
relational comparison involving it is false.  ECMAScript `Date.UTC`
normalization (month overflow carried into the year, day overflow carried
across month boundaries using Gregorian month lengths) is implemented by
`normDay`.  The model does not implement the ECMAScript time-value clip
at ±100 000 000 days from the epoch; all theorems stay far inside that
range.  Monetary values are modelled as exact rationals, with the
source's cent rounding `Math.round(x * 100) / 100` embedded as `round2`.
-/

/-- UTC civil components of a valid JS `Date`:
`year` is `getUTCFullYear()`, `month` is the 0-based `getUTCMonth()`,
`day` is `getUTCDate()`. -/
structure CalDate where
  year : Int
  month : Int
  day : Int
  deriving DecidableEq, Repr

/-- Gregorian leap-year rule used by ECMAScript UTC date arithmetic. -/
def isLeapYear (y : Int) : Bool :=
  (y % 4 == 0 && y % 100 != 0) || y % 400 == 0

/-- Number of days of 0-based month `m` of year `y` (the calendar table
inside the ECMAScript date algorithms; meaningful for `0 ≤ m ≤ 11`). -/
def monthLen (y m : Int) : Int :=
  if m = 1 then (if isLeapYear y then 29 else 28)
  else if m = 3 ∨ m = 5 ∨ m = 8 ∨ m = 10 then 30
  else 31

theorem monthLen_ge (y m : Int) : 28 ≤ monthLen y m := by
  unfold monthLen; split
  · split <;> omega
  · split <;> omega

theorem monthLen_le (y m : Int) : monthLen y m ≤ 31 := by
  unfold monthLen; split
  · split <;> omega
  · split <;> omega

/-- ECMAScript MakeFullYear, applied by `Date.UTC` (and the multi-argument
`Date` constructor) to its year argument: a year in 0..99 is taken as
1900 + year. -/
def makeFullYear (y : Int) : Int :=
  if 0 ≤ y ∧ y ≤ 99 then 1900 + y else y

theorem isLeapYear_iff (y : Int) :
    isLeapYear y = true ↔ ((y % 4 = 0 ∧ y % 100 ≠ 0) ∨ y % 400 = 0) := by
  unfold isLeapYear
  simp [Bool.or_eq_true, Bool.and_eq_true, beq_iff_eq, bne_iff_ne]

/-- The MakeFullYear-mapped year never has a longer month than the raw
year: for years 1..99 the leap status agrees with 1900+year, and year 0
is a leap year while 1900 is not. -/
theorem monthLen_mfy_le (y m : Int) :
    monthLen (makeFullYear y) m ≤ monthLen y m := by
  unfold makeFullYear
  split
  · next hy =>
    by_cases hm : m = 1
    · subst hm
      have h1 : isLeapYear (1900 + y) = true → isLeapYear y = true := by
        rw [isLeapYear_iff, isLeapYear_iff]
        omega
      unfold monthLen
      rw [if_pos rfl, if_pos rfl]
      by_cases hl : isLeapYear (1900 + y) = true
      · rw [if_pos hl, if_pos (h1 hl)]
      · rw [if_neg hl]
        split <;> omega
    · unfold monthLen
      rw [if_neg hm, if_neg hm]
  · exact le_refl _

/-- Day-overflow normalization, positive direction: starting from a
0-based month `m` and a day `d ≥ 1`, carry whole months while the day
exceeds the month length (how ECMAScript resolves `Date.UTC(y, m, d)`
for an overflowing day). -/
def carryDay (y m d : Int) : CalDate :=
  if d ≤ monthLen y m then ⟨y, m, d⟩
  else if m = 11 then carryDay (y + 1) 0 (d - monthLen y m)
  else carryDay y (m + 1) (d - monthLen y m)
termination_by d.toNat
decreasing_by
  all_goals
    have h1 := monthLen_ge y m
    omega

/-- Day-underflow normalization, negative direction: borrow whole months
while the day is below 1. -/
def borrowDay (y m d : Int) : CalDate :=
  if 1 ≤ d then ⟨y, m, d⟩
  else if m = 0 then borrowDay (y - 1) 11 (d + monthLen (y - 1) 11)
  else borrowDay y (m - 1) (d + monthLen y (m - 1))
termination_by (1 - d).toNat
decreasing_by
  all_goals
    first
    | (have h1 := monthLen_ge (y - 1) 11; omega)
    | (have h1 := monthLen_ge y (m - 1); omega)

/-- Full ECMAScript `Date.UTC(y, m, d)` component normalization: month
overflow is carried into the year (floored division, as in MakeDay),
then day overflow/underflow is carried across month boundaries. -/
def normDay (y m d : Int) : CalDate :=
  if 1 ≤ d then carryDay (y + m / 12) (m % 12) d
  else borrowDay (y + m / 12) (m % 12) d

/-- A `CalDate` is in the canonical form every real JS `Date` has:
month in `[0, 11]` and day in `[1, monthLen]`. -/
def Normalized (c : CalDate) : Prop :=
  0 ≤ c.month ∧ c.month ≤ 11 ∧ 1 ≤ c.day ∧ c.day ≤ monthLen c.year c.month

instance (c : CalDate) : Decidable (Normalized c) := by
  unfold Normalized; infer_instance

/-- Strict time-value order of two valid dates (lexicographic on the
normalized civil components). -/
def lexLt (a b : CalDate) : Prop :=
  a.year < b.year ∨ (a.year = b.year ∧
    (a.month < b.month ∨ (a.month = b.month ∧ a.day < b.day)))

/-- Time-value order (non-strict) of two valid dates. -/
def lexLe (a b : CalDate) : Prop :=
  a.year < b.year ∨ (a.year = b.year ∧
    (a.month < b.month ∨ (a.month = b.month ∧ a.day ≤ b.day)))

instance (a b : CalDate) : Decidable (lexLt a b) := by
  unfold lexLt; infer_instance

instance (a b : CalDate) : Decidable (lexLe a b) := by
  unfold lexLe; infer_instance

/-- Integer measure strictly monotone along `lexLt` on normalized dates;
used for loop termination. -/
def mu (c : CalDate) : Int :=
  372 * c.year + 31 * c.month + c.day

theorem carryDay_norm (y m d : Int) (hm0 : 0 ≤ m) (hm1 : m ≤ 11)
    (hd : 1 ≤ d) : Normalized (carryDay y m d) := by
  induction y, m, d using carryDay.induct with
  | case1 y m d h =>
    rw [carryDay, if_pos h]
    exact ⟨hm0, hm1, hd, h⟩
  | case2 y d h ih =>
    rw [carryDay, if_neg h, if_pos rfl]
    have h1 := monthLen_ge y 11
    exact ih (by omega) (by omega) (by omega)
  | case3 y m d h hm ih =>
    rw [carryDay, if_neg h, if_neg hm]
    have h1 := monthLen_ge y m
    exact ih (by omega) (by omega) (by omega)

theorem borrowDay_norm (y m d : Int) (hm0 : 0 ≤ m) (hm1 : m ≤ 11)
    (hd : d ≤ monthLen y m) : Normalized (borrowDay y m d) := by
  induction y, m, d using borrowDay.induct with
  | case1 y m d h =>
    rw [borrowDay, if_pos h]
    exact ⟨hm0, hm1, h, hd⟩
  | case2 y d h ih =>
    rw [borrowDay, if_neg h, if_pos rfl]
    exact ih (by omega) (by omega)
      (by have := monthLen_ge (y - 1) 11; omega)
  | case3 y m d h hm ih =>
    rw [borrowDay, if_neg h, if_neg hm]
    exact ih (by omega) (by omega)
      (by have := monthLen_ge y (m - 1); omega)

theorem normDay_norm (y m d : Int) : Normalized (normDay y m d) := by
  unfold normDay
  have hm0 : 0 ≤ m % 12 := by omega
  have hm1 : m % 12 ≤ 11 := by omega
  split
  · exact carryDay_norm _ _ _ hm0 hm1 (by omega)
  · exact borrowDay_norm _ _ _ hm0 hm1
      (by have := monthLen_ge (y + m / 12) (m % 12); omega)

theorem normDay_id (y m d : Int) (h : Normalized ⟨y, m, d⟩) :
    normDay y m d = ⟨y, m, d⟩ := by
  obtain ⟨h1, h2, h3, h4⟩ := h
  simp only at h1 h2 h3 h4
  unfold normDay
  rw [if_pos h3]
  have e1 : y + m / 12 = y := by omega
  have e2 : m % 12 = m := by omega
  rw [e1, e2, carryDay, if_pos h4]

theorem carryDay_lex_ge (y m d : Int) : lexLe ⟨y, m, d⟩ (carryDay y m d) := by
  induction y, m, d using carryDay.induct with
  | case1 y m d h =>
    rw [carryDay, if_pos h]
    unfold lexLe; simp
  | case2 y d h ih =>
    rw [carryDay, if_neg h, if_pos rfl]
    unfold lexLe at ih ⊢
    simp only at ih ⊢
    omega
  | case3 y m d h hm ih =>
    rw [carryDay, if_neg h, if_neg hm]
    unfold lexLe at ih ⊢
    simp only at ih ⊢
    omega

theorem carryDay_mu_ge (y m d : Int) :
    372 * y + 31 * m + d ≤ mu (carryDay y m d) := by
  induction y, m, d using carryDay.induct with
  | case1 y m d h =>
    rw [carryDay, if_pos h]; unfold mu; simp
  | case2 y d h ih =>
    rw [carryDay, if_neg h, if_pos rfl]
    have h1 := monthLen_le y 11
    omega
  | case3 y m d h hm ih =>
    rw [carryDay, if_neg h, if_neg hm]
    have h1 := monthLen_le y m
    omega

/-- Model of `date.setUTCDate(d)`: replace the day of month and let the
engine re-normalize the components. -/
def setDay (c : CalDate) (d : Int) : CalDate :=
  normDay c.year c.month d

theorem setDay_norm (c : CalDate) (d : Int) : Normalized (setDay c d) :=
  normDay_norm _ _ _

theorem setDay_mu_ge (c : CalDate) (hc : Normalized c) (n : Int)
    (hn : 1 ≤ c.day + n) : mu c + n ≤ mu (setDay c (c.day + n)) := by
  obtain ⟨h1, h2, h3, h4⟩ := hc
  unfold setDay normDay
  rw [if_pos hn]
  have e1 : c.year + c.month / 12 = c.year := by omega
  have e2 : c.month % 12 = c.month := by omega
  rw [e1, e2]
  have := carryDay_mu_ge c.year c.month (c.day + n)
  unfold mu at *
  omega

theorem setDay_lexLt (c : CalDate) (hc : Normalized c) (n : Int)
    (hn : 1 ≤ n) : lexLt c (setDay c (c.day + n)) := by
  obtain ⟨h1, h2, h3, h4⟩ := hc
  unfold setDay normDay
  rw [if_pos (by omega)]
  have e1 : c.year + c.month / 12 = c.year := by omega
  have e2 : c.month % 12 = c.month := by omega
  rw [e1, e2]
  have := carryDay_lex_ge c.year c.month (c.day + n)
  unfold lexLe at this
  unfold lexLt
  simp only at this ⊢
  omega

/-- Shape of one-day advancement on a normalized date. -/
theorem setDay_one (c : CalDate) (hc : Normalized c) :
    setDay c (c.day + 1) =
      if c.day + 1 ≤ monthLen c.year c.month then
        ⟨c.year, c.month, c.day + 1⟩
      else if c.month = 11 then ⟨c.year + 1, 0, 1⟩
      else ⟨c.year, c.month + 1, 1⟩ := by
  obtain ⟨h1, h2, h3, h4⟩ := hc
  unfold setDay normDay
  rw [if_pos (by omega)]
  have e1 : c.year + c.month / 12 = c.year := by omega
  have e2 : c.month % 12 = c.month := by omega
  rw [e1, e2, carryDay]
  split
  next hle => rfl
  next hgt =>
    split
    next hm =>
      have e3 : c.day + 1 - monthLen c.year 11 = 1 := by rw [hm] at h4 hgt; omega
      rw [hm] at h4 hgt ⊢
      rw [e3, carryDay, if_pos (by have := monthLen_ge (c.year + 1) 0; omega)]
    next hm =>
      have e3 : c.day + 1 - monthLen c.year c.month = 1 := by omega
      rw [e3, carryDay,
        if_pos (by have := monthLen_ge c.year (c.month + 1); omega)]

/-- On normalized dates, one-day advancement is the successor for the
lexicographic (time-value) order: nothing lies strictly between. -/
theorem setDay_one_succ (c e : CalDate) (hc : Normalized c)
    (he : Normalized e) (h : lexLt c e) : lexLe (setDay c (c.day + 1)) e := by
  rw [setDay_one c hc]
  obtain ⟨h1, h2, h3, h4⟩ := hc
  obtain ⟨g1, g2, g3, g4⟩ := he
  unfold lexLt at h
  unfold lexLe
  split
  next hle => simp only at *; omega
  next hgt =>
    by_cases hsame : e.year = c.year ∧ e.month = c.month
    · exfalso
      have e5 : monthLen e.year e.month = monthLen c.year c.month := by
        rw [hsame.1, hsame.2]
      omega
    · split
      next hm => simp only at *; omega
      next hm => simp only at *; omega

theorem mu_le_of_lexLe (a b : CalDate) (ha : Normalized a)
    (hb : Normalized b) (h : lexLe a b) : mu a ≤ mu b := by
  obtain ⟨h1, h2, h3, h4⟩ := ha
  obtain ⟨g1, g2, g3, g4⟩ := hb
  have la := monthLen_le a.year a.month
  have lb := monthLen_le b.year b.month
  unfold lexLe at h
  unfold mu
  omega

/-- Model of the source's `daysInMonth(year, month)`:
`new Date(Date.UTC(year, month + 1, 0)).getUTCDate()` — `Date.UTC`
applies MakeFullYear to the year argument, then day 0 of the next month
normalizes to the last day of month `month`. -/
def daysInMonth (year month : Int) : Int :=
  (normDay (makeFullYear year) (month + 1) 0).day

theorem normDay_last_day (y m : Int) (h0 : 0 ≤ m) (h1 : m ≤ 11) :
    (normDay y (m + 1) 0).day = monthLen y m := by
  unfold normDay
  rw [if_neg (by omega)]
  by_cases hm : m = 11
  · subst hm
    have e1 : y + (11 + 1) / 12 = y + 1 := by omega
    have e2 : (11 + 1 : Int) % 12 = 0 := by omega
    rw [e1, e2, borrowDay, if_neg (by omega), if_pos rfl]
    have e3 : y + 1 - 1 = y := by omega
    rw [e3, borrowDay, if_pos (by have := monthLen_ge y 11; omega)]
    show 0 + monthLen y 11 = monthLen y 11
    omega
  · have e1 : y + (m + 1) / 12 = y := by omega
    have e2 : (m + 1) % 12 = m + 1 := by omega
    rw [e1, e2, borrowDay, if_neg (by omega), if_neg (by omega)]
    have e3 : m + 1 - 1 = m := by omega
    rw [e3, borrowDay, if_pos (by have := monthLen_ge y m; omega)]
    show 0 + monthLen y m = monthLen y m
    omega

/-- Model of the source's `addMonths(date, months)`:
`setUTCMonth(getUTCMonth() + months, 1)` (month overflow carried into
the year, day pinned to 1), then `setUTCDate(min(day, daysInMonth))`
with `day` the day of month read from the original date. -/
def addMonths (c : CalDate) (months : Int) : CalDate :=
  normDay (c.year + (c.month + months) / 12) ((c.month + months) % 12)
    (min c.day
      (daysInMonth (c.year + (c.month + months) / 12) ((c.month + months) % 12)))

theorem normalized_mk (y m d : Int) (h1 : 0 ≤ m) (h2 : m ≤ 11) (h3 : 1 ≤ d)
    (h4 : d ≤ monthLen y m) : Normalized ⟨y, m, d⟩ := ⟨h1, h2, h3, h4⟩

theorem daysInMonth_eq (y m : Int) (h0 : 0 ≤ m) (h1 : m ≤ 11) :
    daysInMonth y m = monthLen (makeFullYear y) m := by
  unfold daysInMonth
  exact normDay_last_day (makeFullYear y) m h0 h1

theorem addMonths_eq (c : CalDate) (hc : Normalized c) (k : Int) :
    addMonths c k =
      ⟨c.year + (c.month + k) / 12, (c.month + k) % 12,
        min c.day
          (monthLen (makeFullYear (c.year + (c.month + k) / 12))
            ((c.month + k) % 12))⟩ := by
  obtain ⟨h1, h2, h3, h4⟩ := hc
  unfold addMonths
  rw [daysInMonth_eq _ _ (by omega) (by omega)]
  apply normDay_id
  have hge := monthLen_ge (makeFullYear (c.year + (c.month + k) / 12))
    ((c.month + k) % 12)
  have hle2 := monthLen_mfy_le (c.year + (c.month + k) / 12) ((c.month + k) % 12)
  exact normalized_mk _ _ _ (by omega) (by omega) (by omega) (by omega)

theorem addMonths_norm (c : CalDate) (k : Int) :
    Normalized (addMonths c k) := normDay_norm _ _ _

theorem addMonths_lexLt (c : CalDate) (hc : Normalized c) (k : Int)
    (hk : 1 ≤ k) : lexLt c (addMonths c k) := by
  rw [addMonths_eq c hc k]
  obtain ⟨h1, h2, h3, h4⟩ := hc
  have hdm : 12 * ((c.month + k) / 12) + (c.month + k) % 12 = c.month + k := by
    omega
  unfold lexLt
  simp only
  omega

theorem addMonths_mu_ge (c : CalDate) (hc : Normalized c) (k : Int)
    (hk : 1 ≤ k) : mu c + 1 ≤ mu (addMonths c k) := by
  rw [addMonths_eq c hc k]
  obtain ⟨h1, h2, h3, h4⟩ := hc
  have hdm : 12 * ((c.month + k) / 12) + (c.month + k) % 12 = c.month + k := by
    omega
  have la := monthLen_le c.year c.month
  have lg := monthLen_ge (makeFullYear (c.year + (c.month + k) / 12))
    ((c.month + k) % 12)
  unfold mu
  simp only
  omega

/-- Model of the source's `addDays(date, days)`:
`setUTCDate(getUTCDate() + days)`. -/
def addDays (c : CalDate) (days : Int) : CalDate :=
  setDay c (c.day + days)

/-- A JS `Date` value: either a valid date (normalized civil components)
or the invalid date (NaN time value). -/
inductive JsDate where
  | valid (c : CalDate)
  | invalid
  deriving DecidableEq, Repr

/-- JS `a <= b` on `Date` values via their time values; any comparison
with an invalid date (NaN) is false. -/
def jsLe : JsDate → JsDate → Prop
  | .valid a, .valid b => lexLe a b
  | _, _ => False

/-- JS `a < b` on `Date` values; false whenever a side is invalid. -/
def jsLt : JsDate → JsDate → Prop
  | .valid a, .valid b => lexLt a b
  | _, _ => False

instance : (a b : JsDate) → Decidable (jsLe a b)
  | .valid a, .valid b => inferInstanceAs (Decidable (lexLe a b))
  | .valid _, .invalid => inferInstanceAs (Decidable False)
  | .invalid, _ => inferInstanceAs (Decidable False)

instance : (a b : JsDate) → Decidable (jsLt a b)
  | .valid a, .valid b => inferInstanceAs (Decidable (lexLt a b))
  | .valid _, .invalid => inferInstanceAs (Decidable False)
  | .invalid, _ => inferInstanceAs (Decidable False)

/-- Valid `JsDate`s carry normalized components (as real JS dates do). -/
def JsNorm : JsDate → Prop
  | .valid c => Normalized c
  | .invalid => True

/-- Termination measure lifted to `JsDate`. -/
def jsMu : JsDate → Int
  | .valid c => mu c
  | .invalid => 0

/-- The character of a decimal digit `n < 10`. -/
def digitChar (n : Nat) : Char := Char.ofNat (48 + n)

/-- Numeric value of a decimal digit character. -/
def charVal (ch : Char) : Nat := ch.toNat - 48

def isDigitCh (ch : Char) : Bool :=
  decide (48 ≤ ch.toNat) && decide (ch.toNat ≤ 57)

/-- Decimal digits of a natural number (most significant first), as in
JS `String(n)` for a non-negative integer. -/
def natToChars (n : Nat) : List Char :=
  if n < 10 then [digitChar n]
  else natToChars (n / 10) ++ [digitChar (n % 10)]
termination_by n
decreasing_by omega

/-- JS `String(i)` for an integer: minus sign followed by digits when
negative, plain digits otherwise. -/
def intToChars (i : Int) : List Char :=
  if i < 0 then '-' :: natToChars (-i).toNat else natToChars i.toNat

/-- JS `String(i).padStart(2, '0')`. -/
def pad2 (i : Int) : List Char :=
  if (intToChars i).length < 2 then '0' :: intToChars i else intToChars i

/-- Value of a list of decimal digit characters. -/
def digitsVal (l : List Char) : Nat :=
  l.foldl (fun a ch => 10 * a + charVal ch) 0

/-- Model of ECMAScript `Number(part)` as applied to the dash-separated
parts of a date string: the empty string converts to 0 and a string of
decimal digits to its value.  Other host `Number` syntaxes (signs,
decimal points, exponents, whitespace, hex) are conservatively mapped to
NaN (`none`); none of them occur in date-input strings. -/
def numValue (l : List Char) : Option Int :=
  if l = [] then some 0
  else if l.all isDigitCh then some ((digitsVal l : Int)) else none

/-- JS `value.split('-')` on the character list of a string. -/
def splitDash : List Char → List (List Char)
  | [] => [[]]
  | ch :: rest =>
    if ch = '-' then [] :: splitDash rest
    else
      match splitDash rest with
      | [] => [[ch]]
      | h :: t => (ch :: h) :: t

/-- Model of the source's `parseDateInput(value)`: split on `'-'`,
require exactly three parts, convert each with `Number`, and build
`new Date(Date.UTC(y, m - 1, d))`.  A part that is not a number gives
the invalid date (`Date.UTC` returns NaN); a wrong part count gives
`null` (`none`).  No range check is performed on month or day: they are
normalized by `Date.UTC`, which also applies MakeFullYear to the year
argument (years 0..99 become 1900 + year). -/
def parseDateInput (value : String) : Option JsDate :=
  match splitDash value.data with
  | [p1, p2, p3] =>
    match numValue p1, numValue p2, numValue p3 with
    | some y, some m, some d => some (.valid (normDay (makeFullYear y) (m - 1) d))
    | _, _, _ => some .invalid
  | _ => none

/-- Model of the source's `toDateInputValue(date)`:
`year-month-day` with month and day padded to two digits. -/
def toDateInputValue (date : CalDate) : String :=
  String.mk
    (intToChars date.year ++ '-' :: pad2 (date.month + 1) ++
      '-' :: pad2 date.day)

theorem parse_valid_norm (s : String) (c : CalDate)
    (h : parseDateInput s = some (.valid c)) : Normalized c := by
  unfold parseDateInput at h
  split at h
  · split at h
    · simp only [Option.some.injEq, JsDate.valid.injEq] at h
      subst h
      exact normDay_norm _ _ _
    · simp at h
  · simp at h

/-- The source's cent rounding `Math.round(x * 100) / 100`;
`Math.round` rounds half toward positive infinity. -/
def round2 (x : ℚ) : ℚ :=
  (⌊x * 100 + 1 / 2⌋ : ℚ) / 100

/-- A rational that is a whole number of cents (the §3 data-model
invariant for stored amounts and balances). -/
def Cents (q : ℚ) : Prop := ∃ n : ℤ, q = (n : ℚ) / 100

theorem round2_cents (x : ℚ) : Cents (round2 x) := ⟨_, rfl⟩

theorem round2_eq_self (q : ℚ) (h : Cents q) : round2 q = q := by
  obtain ⟨n, rfl⟩ := h
  unfold round2
  have e : (n : ℚ) / 100 * 100 + 1 / 2 = (n : ℚ) + 1 / 2 := by ring
  rw [e, Int.floor_int_add]
  have e2 : ⌊(1 / 2 : ℚ)⌋ = 0 := by
    rw [Int.floor_eq_zero_iff]
    constructor <;> norm_num
  rw [e2]
  norm_num

theorem cents_add (a b : ℚ) (ha : Cents a) (hb : Cents b) :
    Cents (a + b) := by
  obtain ⟨m, rfl⟩ := ha
  obtain ⟨n, rfl⟩ := hb
  exact ⟨m + n, by push_cast; ring⟩

theorem cents_zero : Cents 0 := ⟨0, by norm_num⟩

/-- A transaction as consumed by the engine (the unused `id` field is
omitted; `type` is the string `"income"` or `"expense"`). -/
structure Txn where
  type : String
  name : String
  amount : ℚ
  startDate : String
  frequency : String
  deriving DecidableEq, Repr

/-- A step descriptor from the `frequencySteps` table.  The day / month
counts in the source table are the positive constants 7, 14, 1, 3, 6 and
12; positivity is recorded because the generator loop terminates only
because of it. -/
inductive StepRule where
  | singleR
  | daysR (n : Int) (pos : 0 < n)
  | monthsR (n : Int) (pos : 0 < n)

/-- The source's `frequencySteps` lookup table. -/
def frequencySteps (f : String) : Option StepRule :=
  if f = "single" then some .singleR
  else if f = "weekly" then some (.daysR 7 (by omega))
  else if f = "biweekly" then some (.daysR 14 (by omega))
  else if f = "every14" then some (.daysR 14 (by omega))
  else if f = "monthly" then some (.monthsR 1 (by omega))
  else if f = "quarterly" then some (.monthsR 3 (by omega))
  else if f = "semiannual" then some (.monthsR 6 (by omega))
  else if f = "annual" then some (.monthsR 12 (by omega))
  else none

/-- The `while (current <= end)` loop of `generateOccurrences`: emit the
current date, stop after one emission for the `single` rule (and for an
unknown frequency, which falls back to `single`), otherwise advance by
the rule's day or month step.  The normalization hypotheses reflect that
real JS `Date` values are always normalized and make the loop's
termination provable. -/
def occLoop (freq : String) (rangeEnd : JsDate) (he : JsNorm rangeEnd)
    (cur : CalDate) (hc : Normalized cur) : List CalDate :=
  if h : jsLe (.valid cur) rangeEnd then
    cur ::
      (match (frequencySteps freq).getD .singleR with
       | .singleR => []
       | .daysR n hnp =>
         occLoop freq rangeEnd he (addDays cur n) (setDay_norm _ _)
       | .monthsR n hnp =>
         occLoop freq rangeEnd he (addMonths cur n) (addMonths_norm _ _))
  else []
termination_by (jsMu rangeEnd - mu cur + 1).toNat
decreasing_by
  · rcases rangeEnd with e | _
    · have hle : lexLe cur e := h
      have hmu := mu_le_of_lexLe cur e hc he hle
      have hstep := setDay_mu_ge cur hc n
        (by obtain ⟨_, _, h3, _⟩ := hc; omega)
      show (jsMu (.valid e) - mu (addDays cur n) + 1).toNat <
        (jsMu (.valid e) - mu cur + 1).toNat
      unfold addDays
      simp only [jsMu]
      omega
    · exact absurd h (by simp [jsLe])
  · rcases rangeEnd with e | _
    · have hle : lexLe cur e := h
      have hmu := mu_le_of_lexLe cur e hc he hle
      have hstep := addMonths_mu_ge cur hc n hnp
      show (jsMu (.valid e) - mu (addMonths cur n) + 1).toNat <
        (jsMu (.valid e) - mu cur + 1).toNat
      simp only [jsMu]
      omega
    · exact absurd h (by simp [jsLe])

/-- Model of the source's `generateOccurrences(txn, rangeEnd)`.  A
`null` parse returns no occurrences (the `if (!current)` guard); an
invalid parsed date also returns none, because the loop guard
`current <= end` is false for a NaN time value. -/
def generateOccurrences (txn : Txn) (rangeEnd : JsDate)
    (he : JsNorm rangeEnd) : List CalDate :=
  match hp : parseDateInput txn.startDate with
  | none => []
  | some .invalid => []
  | some (.valid c) =>
    occLoop txn.frequency rangeEnd he c (parse_valid_norm _ _ hp)

/-- `map.get(key) || []` for a JS `Map` keyed by the occurrence's
`getTime()` value, modelled as an association list in insertion order
(valid time values are in bijection with normalized `CalDate`s). -/
def mapGet (m : List (CalDate × List Txn)) (k : CalDate) : List Txn :=
  match m with
  | [] => []
  | (k2, v) :: rest => if k2 = k then v else mapGet rest k

/-- `map.set(key, v)`: replace the binding in place, or append a new
binding. -/
def mapSet (m : List (CalDate × List Txn)) (k : CalDate) (v : List Txn) :
    List (CalDate × List Txn) :=
  match m with
  | [] => [(k, v)]
  | (k2, v2) :: rest =>
    if k2 = k then (k, v) :: rest else (k2, v2) :: mapSet rest k v

/-- The mutable state of `computeLedger`'s first phase: the running
`balance` accumulator and the `dailyIncome` / `dailyExpenses` buckets. -/
structure LedgerState where
  balance : ℚ
  dailyIncome : List (CalDate × List Txn)
  dailyExpenses : List (CalDate × List Txn)

/-- Processing of a single occurrence in `computeLedger`'s
`txns.forEach` pass: an occurrence strictly before the window start is
folded (signed, cent-rounded) into the balance accumulator; an
occurrence inside `[startUTC, endUTC]` is pushed into the per-day bucket
of its type; anything else (impossible for real occurrences, or when a
window bound is invalid) is ignored. -/
def applyOcc (startUTC endUTC : JsDate) (txn : Txn) (st : LedgerState)
    (occ : CalDate) : LedgerState :=
  if jsLt (.valid occ) startUTC then
    { st with
      balance :=
        round2 (st.balance +
          (if txn.type = "income" then txn.amount else -txn.amount)) }
  else if jsLe startUTC (.valid occ) ∧ jsLe (.valid occ) endUTC then
    if txn.type = "income" then
      { st with
        dailyIncome :=
          mapSet st.dailyIncome occ (mapGet st.dailyIncome occ ++ [txn]) }
    else
      { st with
        dailyExpenses :=
          mapSet st.dailyExpenses occ (mapGet st.dailyExpenses occ ++ [txn]) }
  else st

/-- One iteration of the `txns.forEach` pass: generate the transaction's
occurrences up to `endUTC` and process each. -/
def applyTxn (startUTC endUTC : JsDate) (he : JsNorm endUTC)
    (st : LedgerState) (txn : Txn) : LedgerState :=
  (generateOccurrences txn endUTC he).foldl (applyOcc startUTC endUTC txn) st

/-- The whole first phase of `computeLedger`. -/
def phase1 (startUTC endUTC : JsDate) (he : JsNorm endUTC)
    (startingBalance : ℚ) (txns : List Txn) : LedgerState :=
  txns.foldl (applyTxn startUTC endUTC he) ⟨startingBalance, [], []⟩

/-- Insert an expense record into a list sorted by the comparator,
keeping it after every record it does not strictly precede (ties keep
their original relative order). -/
def insertByName (cmp : String → String → Int) (x : String × ℚ) :
    List (String × ℚ) → List (String × ℚ)
  | [] => [x]
  | y :: ys =>
    if cmp x.1 y.1 ≤ 0 then x :: y :: ys else y :: insertByName cmp x ys

/-- Model of `array.sort((a, b) => cmp(a.name, b.name))` as a stable
insertion sort (ECMAScript `Array.prototype.sort` is stable). -/
def sortByName (cmp : String → String → Int) :
    List (String × ℚ) → List (String × ℚ)
  | [] => []
  | x :: xs => insertByName cmp x (sortByName cmp xs)

/-- One LedgerEntry of `computeLedger`'s output. -/
structure LedgerEntry where
  date : CalDate
  startingBalance : ℚ
  totalIncome : ℚ
  endingBalance : ℚ
  expenses : List (String × ℚ)
  deriving DecidableEq, Repr

/-- The body of one iteration of `computeLedger`'s day loop for day `c`
with the running balance `balance`. -/
def dayEntry (cmp : String → String → Int)
    (dailyIncome dailyExpenses : List (CalDate × List Txn)) (c : CalDate)
    (balance : ℚ) : LedgerEntry :=
  let startBal := round2 balance
  let totalIncome :=
    round2 (((mapGet dailyIncome c).map (fun t => t.amount)).foldl
      (fun s v => s + v) 0)
  let expenses :=
    sortByName cmp ((mapGet dailyExpenses c).map (fun t => (t.name, t.amount)))
  let totalExpenses := round2 (expenses.foldl (fun s e => s + e.2) 0)
  ⟨c, startBal, totalIncome,
    round2 (startBal + totalIncome - totalExpenses), expenses⟩

/-- The `while (current <= endUTC)` day loop of `computeLedger`: one
entry per day, the running balance updated to the entry's ending
balance, the cursor advanced by `setUTCDate(getUTCDate() + 1)`. -/
def ledgerLoop (cmp : String → String → Int) (endUTC : JsDate)
    (he : JsNorm endUTC)
    (dailyIncome dailyExpenses : List (CalDate × List Txn))
    (cur : JsDate) (hc : JsNorm cur) (balance : ℚ) : List LedgerEntry :=
  match cur with
  | .invalid => []
  | .valid c =>
    if h : jsLe (.valid c) endUTC then
      dayEntry cmp dailyIncome dailyExpenses c balance ::
        ledgerLoop cmp endUTC he dailyIncome dailyExpenses
          (.valid (setDay c (c.day + 1))) (setDay_norm _ _)
          (dayEntry cmp dailyIncome dailyExpenses c balance).endingBalance
    else []
termination_by (jsMu endUTC - jsMu cur + 1).toNat
decreasing_by
  rcases endUTC with e | _
  · have hle : lexLe c e := h
    have hmu := mu_le_of_lexLe c e hc he hle
    have hstep := setDay_mu_ge c hc 1
      (by obtain ⟨_, _, h3, _⟩ := hc; omega)
    simp only [jsMu]
    omega
  · exact absurd h (by simp [jsLe])

/-- JS epoch day 1970-01-01; the time value of `null` coerced to a
number, which is how a `null` window bound behaves in every comparison
and `Date` construction inside `computeLedger`. -/
def epochDate : CalDate := ⟨1970, 0, 1⟩

theorem parse_getD_norm (s : String) :
    JsNorm ((parseDateInput s).getD (.valid epochDate)) := by
  cases hp : parseDateInput s with
  | none => exact (by decide : Normalized epochDate)
  | some d =>
    cases d with
    | valid c => exact parse_valid_norm _ _ hp
    | invalid => trivial

/-- Model of the source's
`computeLedger(startDate, endDate, startingBalance, txns)`.  The window
bounds are round-tripped through `toDateInputValue` / `parseDateInput`
exactly as in the source; a `null` re-parse (possible only for a
negative year) behaves as the epoch, matching JS number coercion of
`null`.  The name comparator used to sort expense records is
`String.prototype.localeCompare`, a host collation left as the `cmp`
parameter. -/
def computeLedger (cmp : String → String → Int) (startDate endDate : CalDate)
    (startingBalance : ℚ) (txns : List Txn) : List LedgerEntry :=
  let startUTC := (parseDateInput (toDateInputValue startDate)).getD
    (.valid epochDate)
  let endUTC := (parseDateInput (toDateInputValue endDate)).getD
    (.valid epochDate)
  let st := phase1 startUTC endUTC (parse_getD_norm _) startingBalance txns
  ledgerLoop cmp endUTC (parse_getD_norm _) st.dailyIncome st.dailyExpenses
    startUTC (parse_getD_norm _) st.balance

instance : (d : JsDate) → Decidable (JsNorm d)
  | .valid c => inferInstanceAs (Decidable (Normalized c))
  | .invalid => inferInstanceAs (Decidable True)

theorem generateOccurrences_valid (txn : Txn) (e : JsDate) (he : JsNorm e)
    (c : CalDate) (hp : parseDateInput txn.startDate = some (.valid c)) :
    generateOccurrences txn e he =
      occLoop txn.frequency e he c (parse_valid_norm _ _ hp) := by
  unfold generateOccurrences
  split
  · simp_all
  · simp_all
  · next c2 hp2 =>
    rw [hp2] at hp
    simp only [Option.some.injEq, JsDate.valid.injEq] at hp
    subst hp
    rfl

theorem generateOccurrences_bad (txn : Txn) (e : JsDate) (he : JsNorm e)
    (hp : ∀ c, parseDateInput txn.startDate ≠ some (.valid c)) :
    generateOccurrences txn e he = [] := by
  unfold generateOccurrences
  split
  · rfl
  · rfl
  · next c2 hp2 => exact absurd hp2 (hp c2)

theorem occLoop_monthly (e : JsDate) (he : JsNorm e) (cur : CalDate)
    (hc : Normalized cur) :
    occLoop "monthly" e he cur hc =
      if jsLe (.valid cur) e then
        cur :: occLoop "monthly" e he (addMonths cur 1) (addMonths_norm _ _)
      else [] := by
  rw [occLoop]
  split
  · rfl
  · rfl

theorem occLoop_single_rule (freq : String) (e : JsDate) (he : JsNorm e)
    (cur : CalDate) (hc : Normalized cur)
    (hf : (frequencySteps freq).getD .singleR = .singleR) :
    occLoop freq e he cur hc =
      if jsLe (.valid cur) e then [cur] else [] := by
  rw [occLoop]
  split
  · rw [hf]
  · rfl

theorem lexLe_refl (a : CalDate) : lexLe a a := by unfold lexLe; omega

theorem lexLe_of_lexLt (a b : CalDate) (h : lexLt a b) : lexLe a b := by
  unfold lexLt at h; unfold lexLe; omega

theorem lexLe_trans (a b c : CalDate) (h1 : lexLe a b) (h2 : lexLe b c) :
    lexLe a c := by
  unfold lexLe at *; omega

theorem lexLt_of_lexLt_of_lexLe (a b c : CalDate) (h1 : lexLt a b)
    (h2 : lexLe b c) : lexLt a c := by
  unfold lexLt at *; unfold lexLe at h2; omega

theorem lexLt_of_lexLe_of_lexLt (a b c : CalDate) (h1 : lexLe a b)
    (h2 : lexLt b c) : lexLt a c := by
  unfold lexLe at h1; unfold lexLt at *; omega

theorem lexLt_irrefl (a b : CalDate) (h : lexLt a b) : a ≠ b := by
  intro he
  subst he
  unfold lexLt at h
  omega

theorem lexLe_cases (a b : CalDate) (h : lexLe a b) : lexLt a b ∨ a = b := by
  obtain ⟨ay, am, ad⟩ := a
  obtain ⟨by2, bm, bd⟩ := b
  by_cases he : ay = by2 ∧ am = bm ∧ ad = bd
  · right
    obtain ⟨e1, e2, e3⟩ := he
    rw [e1, e2, e3]
  · left
    unfold lexLe at h
    unfold lexLt
    simp only at h ⊢
    omega

theorem lexLe_total (a b : CalDate) (h : ¬ lexLe a b) : lexLt b a := by
  unfold lexLe at h; unfold lexLt; omega

/-- Every occurrence emitted by the generator loop is at or after the
loop's current date. -/
theorem occLoop_mem_ge (freq : String) (e : JsDate) (he : JsNorm e)
    (cur : CalDate) (hc : Normalized cur) :
    ∀ x ∈ occLoop freq e he cur hc, lexLe cur x := by
  induction cur, hc using occLoop.induct freq e he with
  | case1 cur hc h ihd ihm =>
    rw [occLoop, dif_pos h]
    intro x hx
    rcases List.mem_cons.mp hx with h1 | h1
    · subst h1; exact lexLe_refl x
    · rcases hstep : (frequencySteps freq).getD .singleR with _ | ⟨n, hnp⟩ | ⟨n, hnp⟩
      · simp only [hstep] at h1
        cases h1
      · simp only [hstep] at h1
        exact lexLe_trans _ _ _
          (lexLe_of_lexLt _ _ (setDay_lexLt cur hc n (by omega)))
          (ihd n hnp x h1)
      · simp only [hstep] at h1
        exact lexLe_trans _ _ _
          (lexLe_of_lexLt _ _ (addMonths_lexLt cur hc n hnp))
          (ihm n hnp x h1)
  | case2 cur hc h =>
    rw [occLoop, dif_neg h]
    intro x hx
    cases hx

/-- The generator loop emits strictly increasing dates. -/
theorem occLoop_chain (freq : String) (e : JsDate) (he : JsNorm e)
    (cur : CalDate) (hc : Normalized cur) :
    List.Chain' lexLt (occLoop freq e he cur hc) := by
  induction cur, hc using occLoop.induct freq e he with
  | case1 cur hc h ihd ihm =>
    rw [occLoop, dif_pos h]
    rcases hstep : (frequencySteps freq).getD .singleR with _ | ⟨n, hnp⟩ | ⟨n, hnp⟩
    · simp only [hstep]
      simp
    · simp only [hstep]
      refine List.chain'_cons'.mpr ⟨?_, ihd n hnp⟩
      intro y hy
      have hmem : y ∈ occLoop freq e he (addDays cur n) (setDay_norm _ _) :=
        List.mem_of_mem_head? hy
      exact lexLt_of_lexLt_of_lexLe _ _ _
        (setDay_lexLt cur hc n (by omega))
        (occLoop_mem_ge freq e he _ _ y hmem)
    · simp only [hstep]
      refine List.chain'_cons'.mpr ⟨?_, ihm n hnp⟩
      intro y hy
      have hmem : y ∈ occLoop freq e he (addMonths cur n) (addMonths_norm _ _) :=
        List.mem_of_mem_head? hy
      exact lexLt_of_lexLt_of_lexLe _ _ _
        (addMonths_lexLt cur hc n hnp)
        (occLoop_mem_ge freq e he _ _ y hmem)
  | case2 cur hc h =>
    rw [occLoop, dif_neg h]
    simp

instance : IsTrans CalDate lexLt :=
  ⟨fun a b c h1 h2 => lexLt_of_lexLt_of_lexLe a b c h1 (lexLe_of_lexLt _ _ h2)⟩

theorem occurrences_nodup (txn : Txn) (e : JsDate) (he : JsNorm e) :
    (generateOccurrences txn e he).Nodup := by
  unfold generateOccurrences
  split
  · simp
  · simp
  · next c2 hp2 =>
    have hch := occLoop_chain txn.frequency e he c2 (parse_valid_norm _ _ hp2)
    have hp : List.Pairwise lexLt (occLoop txn.frequency e he c2 (parse_valid_norm _ _ hp2)) :=
      List.chain'_iff_pairwise.mp hch
    exact hp.imp (fun h => lexLt_irrefl _ _ h)

theorem digitChar_isDigit (k : Nat) (h : k < 10) :
    isDigitCh (digitChar k) = true := by
  interval_cases k <;> decide

theorem digitChar_ne_dash (k : Nat) (h : k < 10) : digitChar k ≠ '-' := by
  interval_cases k <;> decide

theorem charVal_digitChar (k : Nat) (h : k < 10) : charVal (digitChar k) = k := by
  interval_cases k <;> decide

theorem natToChars_props (n : Nat) :
    natToChars n ≠ [] ∧
      ∀ ch ∈ natToChars n, isDigitCh ch = true ∧ ch ≠ '-' := by
  induction n using natToChars.induct with
  | case1 n h =>
    rw [natToChars, if_pos h]
    refine ⟨by simp, ?_⟩
    intro ch hch
    rw [List.mem_singleton] at hch
    subst hch
    exact ⟨digitChar_isDigit _ h, digitChar_ne_dash _ h⟩
  | case2 n h ih =>
    rw [natToChars, if_neg h]
    refine ⟨by simp, ?_⟩
    intro ch hch
    rcases List.mem_append.mp hch with h1 | h1
    · exact ih.2 ch h1
    · rw [List.mem_singleton] at h1
      subst h1
      exact ⟨digitChar_isDigit _ (by omega), digitChar_ne_dash _ (by omega)⟩

theorem digitsVal_append_one (l : List Char) (ch : Char) :
    digitsVal (l ++ [ch]) = 10 * digitsVal l + charVal ch := by
  unfold digitsVal
  rw [List.foldl_append]
  rfl

theorem digitsVal_natToChars (n : Nat) : digitsVal (natToChars n) = n := by
  induction n using natToChars.induct with
  | case1 n h =>
    rw [natToChars, if_pos h]
    show 10 * 0 + charVal (digitChar n) = n
    rw [charVal_digitChar n h]
    omega
  | case2 n h ih =>
    rw [natToChars, if_neg h, digitsVal_append_one, ih,
      charVal_digitChar _ (by omega)]
    omega

theorem numValue_natToChars (n : Nat) :
    numValue (natToChars n) = some (n : Int) := by
  obtain ⟨hne, hall⟩ := natToChars_props n
  unfold numValue
  rw [if_neg hne, if_pos (List.all_eq_true.mpr (fun ch hch => (hall ch hch).1)),
    digitsVal_natToChars]

theorem digitsVal_cons_zero (l : List Char) :
    digitsVal ('0' :: l) = digitsVal l := by
  unfold digitsVal
  show List.foldl _ (10 * 0 + charVal '0') l = List.foldl _ 0 l
  have e : 10 * 0 + charVal '0' = 0 := by decide
  rw [e]

theorem numValue_pad2 (i : Int) (h : 0 ≤ i) :
    numValue (pad2 i) = some i ∧ ∀ ch ∈ pad2 i, ch ≠ '-' := by
  have hi : intToChars i = natToChars i.toNat := by
    unfold intToChars
    rw [if_neg (by omega)]
  obtain ⟨hne, hall⟩ := natToChars_props i.toNat
  unfold pad2
  rw [hi]
  split
  · constructor
    · unfold numValue
      rw [if_neg (by simp),
        if_pos (List.all_eq_true.mpr ?_), digitsVal_cons_zero,
        digitsVal_natToChars]
      · rw [Int.toNat_of_nonneg h]
      · intro ch hch
        rcases List.mem_cons.mp hch with h1 | h1
        · subst h1; decide
        · exact (hall ch h1).1
    · intro ch hch
      rcases List.mem_cons.mp hch with h1 | h1
      · subst h1; decide
      · exact (hall ch h1).2
  · constructor
    · rw [numValue_natToChars, Int.toNat_of_nonneg h]
    · exact fun ch hch => (hall ch hch).2

theorem splitDash_nodash (l : List Char) (h : ∀ ch ∈ l, ch ≠ '-') :
    splitDash l = [l] := by
  induction l with
  | nil => rfl
  | cons ch rest ih =>
    show (if ch = '-' then [] :: splitDash rest
      else match splitDash rest with
        | [] => [[ch]]
        | h :: t => (ch :: h) :: t) = [ch :: rest]
    rw [if_neg (h ch (List.mem_cons_self _ _)),
      ih (fun c hc => h c (List.mem_cons_of_mem _ hc))]

theorem splitDash_append (a r : List Char) (h : ∀ ch ∈ a, ch ≠ '-') :
    splitDash (a ++ '-' :: r) = a :: splitDash r := by
  induction a with
  | nil =>
    show (if '-' = '-' then [] :: splitDash r else _) = [] :: splitDash r
    rw [if_pos rfl]
  | cons ch rest ih =>
    show (if ch = '-' then [] :: splitDash (rest ++ '-' :: r)
      else match splitDash (rest ++ '-' :: r) with
        | [] => [[ch]]
        | h :: t => (ch :: h) :: t) = (ch :: rest) :: splitDash r
    rw [if_neg (h ch (List.mem_cons_self _ _)),
      ih (fun c hc => h c (List.mem_cons_of_mem _ hc))]

/-- Round-trip used inside `computeLedger`: re-parsing
`toDateInputValue(date)` returns the same valid date, for any real
(normalized) date with a non-negative year. -/
theorem parse_toDateInputValue (c : CalDate) (hc : Normalized c)
    (hy : 100 ≤ c.year) : parseDateInput (toDateInputValue c) = some (.valid c) := by
  have hyear : intToChars c.year = natToChars c.year.toNat := by
    unfold intToChars
    rw [if_neg (by omega)]
  obtain ⟨hyne, hyall⟩ := natToChars_props c.year.toNat
  obtain ⟨hm1, hm2⟩ := numValue_pad2 (c.month + 1) (by obtain ⟨a, _, _, _⟩ := hc; omega)
  obtain ⟨hd1, hd2⟩ := numValue_pad2 c.day (by obtain ⟨_, _, a, _⟩ := hc; omega)
  unfold toDateInputValue parseDateInput
  have hdata : (String.mk (intToChars c.year ++ '-' :: pad2 (c.month + 1) ++
      '-' :: pad2 c.day)).data =
      intToChars c.year ++ '-' :: (pad2 (c.month + 1) ++ '-' :: pad2 c.day) := by
    simp
  rw [hdata, hyear,
    splitDash_append _ _ (fun ch hch => (hyall ch hch).2),
    splitDash_append _ _ hm2,
    splitDash_nodash _ hd2]
  simp only [numValue_natToChars, hm1, hd1]
  rw [Int.toNat_of_nonneg (by omega)]
  have hmfy : makeFullYear c.year = c.year := by
    unfold makeFullYear
    rw [if_neg (by omega)]
  have e : c.month + 1 - 1 = c.month := by omega
  rw [hmfy, e, normDay_id c.year c.month c.day hc]

theorem mapGet_mapSet_self (m : List (CalDate × List Txn)) (k : CalDate)
    (v : List Txn) : mapGet (mapSet m k v) k = v := by
  induction m with
  | nil => simp [mapSet, mapGet]
  | cons p rest ih =>
    obtain ⟨k2, v2⟩ := p
    by_cases h : k2 = k
    · simp [mapSet, mapGet, h]
    · simp [mapSet, mapGet, h, ih]

theorem mapGet_mapSet_ne (m : List (CalDate × List Txn)) (k q : CalDate)
    (v : List Txn) (h : q ≠ k) : mapGet (mapSet m k v) q = mapGet m q := by
  induction m with
  | nil => simp [mapSet, mapGet, Ne.symm h]
  | cons p rest ih =>
    obtain ⟨k2, v2⟩ := p
    by_cases h2 : k2 = k
    · subst h2
      simp [mapSet, mapGet, Ne.symm h]
    · by_cases h3 : k2 = q
      · simp [mapSet, mapGet, h2, h3, h]
      · simp [mapSet, mapGet, h2, h3, ih]

/-- The signed amount of an occurrence:
`txn.type === 'income' ? txn.amount : -txn.amount`. -/
def signedAmount (txn : Txn) : ℚ :=
  if txn.type = "income" then txn.amount else -txn.amount

theorem applyOcc_balance (s e : JsDate) (txn : Txn) (st : LedgerState)
    (occ : CalDate) :
    (applyOcc s e txn st occ).balance =
      if jsLt (.valid occ) s then round2 (st.balance + signedAmount txn)
      else st.balance := by
  unfold applyOcc signedAmount
  by_cases hlt : jsLt (.valid occ) s
  · simp [hlt]
  · simp [hlt]
    split
    · split <;> rfl
    · rfl

theorem applyOcc_expenses (s e : JsDate) (txn : Txn) (st : LedgerState)
    (occ : CalDate) :
    (applyOcc s e txn st occ).dailyExpenses =
      if ¬ jsLt (.valid occ) s ∧ (jsLe s (.valid occ) ∧ jsLe (.valid occ) e) ∧
          txn.type ≠ "income" then
        mapSet st.dailyExpenses occ (mapGet st.dailyExpenses occ ++ [txn])
      else st.dailyExpenses := by
  unfold applyOcc
  by_cases h1 : jsLt (.valid occ) s
  · simp [h1]
  · by_cases h2 : jsLe s (.valid occ) ∧ jsLe (.valid occ) e
    · by_cases h3 : txn.type = "income" <;> simp [h1, h2, h3]
    · simp [h1, h2]

theorem applyOcc_income (s e : JsDate) (txn : Txn) (st : LedgerState)
    (occ : CalDate) :
    (applyOcc s e txn st occ).dailyIncome =
      if ¬ jsLt (.valid occ) s ∧ (jsLe s (.valid occ) ∧ jsLe (.valid occ) e) ∧
          txn.type = "income" then
        mapSet st.dailyIncome occ (mapGet st.dailyIncome occ ++ [txn])
      else st.dailyIncome := by
  unfold applyOcc
  by_cases h1 : jsLt (.valid occ) s
  · simp [h1]
  · by_cases h2 : jsLe s (.valid occ) ∧ jsLe (.valid occ) e
    · by_cases h3 : txn.type = "income" <;> simp [h1, h2, h3]
    · simp [h1, h2]

theorem foldOccs_balance (s e : JsDate) (txn : Txn) (occs : List CalDate)
    (st : LedgerState) :
    (occs.foldl (applyOcc s e txn) st).balance =
      occs.foldl
        (fun b o => if jsLt (.valid o) s then round2 (b + signedAmount txn)
          else b) st.balance := by
  induction occs generalizing st with
  | nil => rfl
  | cons o rest ih =>
    rw [List.foldl_cons, List.foldl_cons, ih, applyOcc_balance]

theorem foldOccs_expense_get_notmem (s e : JsDate) (txn : Txn)
    (occs : List CalDate) (st : LedgerState) (k : CalDate) (hk : k ∉ occs) :
    mapGet ((occs.foldl (applyOcc s e txn) st).dailyExpenses) k =
      mapGet st.dailyExpenses k := by
  induction occs generalizing st with
  | nil => rfl
  | cons o rest ih =>
    rw [List.foldl_cons, ih _ (fun hm => hk (List.mem_cons_of_mem _ hm)),
      applyOcc_expenses]
    split
    · rw [mapGet_mapSet_ne _ _ _ _
        (fun he => hk (by rw [he]; exact List.mem_cons_self _ _))]
    · rfl

theorem foldOccs_income_get_notmem (s e : JsDate) (txn : Txn)
    (occs : List CalDate) (st : LedgerState) (k : CalDate) (hk : k ∉ occs) :
    mapGet ((occs.foldl (applyOcc s e txn) st).dailyIncome) k =
      mapGet st.dailyIncome k := by
  induction occs generalizing st with
  | nil => rfl
  | cons o rest ih =>
    rw [List.foldl_cons, ih _ (fun hm => hk (List.mem_cons_of_mem _ hm)),
      applyOcc_income]
    split
    · rw [mapGet_mapSet_ne _ _ _ _
        (fun he => hk (by rw [he]; exact List.mem_cons_self _ _))]
    · rfl

theorem foldOccs_expense_get (s e : JsDate) (txn : Txn) (occs : List CalDate)
    (st : LedgerState) (k : CalDate) (hnd : occs.Nodup)
    (hk1 : ¬ jsLt (.valid k) s) (hk2 : jsLe s (.valid k))
    (hk3 : jsLe (.valid k) e) :
    mapGet ((occs.foldl (applyOcc s e txn) st).dailyExpenses) k =
      mapGet st.dailyExpenses k ++
        (if k ∈ occs ∧ txn.type ≠ "income" then [txn] else []) := by
  induction occs generalizing st with
  | nil => simp
  | cons o rest ih =>
    rw [List.foldl_cons]
    by_cases ho : o = k
    · subst ho
      have hnotin : o ∉ rest := (List.nodup_cons.mp hnd).1
      rw [foldOccs_expense_get_notmem s e txn rest _ o hnotin,
        applyOcc_expenses]
      by_cases hty : txn.type = "income"
      · simp [hk1, hk2, hk3, hty]
      · simp [hk1, hk2, hk3, hty, mapGet_mapSet_self]
    · rw [ih (applyOcc s e txn st o) (List.nodup_cons.mp hnd).2]
      have hsame : mapGet (applyOcc s e txn st o).dailyExpenses k =
          mapGet st.dailyExpenses k := by
        rw [applyOcc_expenses]
        split
        · exact mapGet_mapSet_ne _ _ _ _ (fun he => ho he.symm)
        · rfl
      rw [hsame]
      have hiff : (k ∈ rest ∧ txn.type ≠ "income") ↔
          (k ∈ o :: rest ∧ txn.type ≠ "income") := by
        constructor
        · exact fun ⟨hm, ht⟩ => ⟨List.mem_cons_of_mem _ hm, ht⟩
        · rintro ⟨hm, ht⟩
          rcases List.mem_cons.mp hm with h1 | h1
          · exact absurd h1.symm ho
          · exact ⟨h1, ht⟩
      rw [if_congr hiff rfl rfl]

theorem foldOccs_income_get (s e : JsDate) (txn : Txn) (occs : List CalDate)
    (st : LedgerState) (k : CalDate) (hnd : occs.Nodup)
    (hk1 : ¬ jsLt (.valid k) s) (hk2 : jsLe s (.valid k))
    (hk3 : jsLe (.valid k) e) :
    mapGet ((occs.foldl (applyOcc s e txn) st).dailyIncome) k =
      mapGet st.dailyIncome k ++
        (if k ∈ occs ∧ txn.type = "income" then [txn] else []) := by
  induction occs generalizing st with
  | nil => simp
  | cons o rest ih =>
    rw [List.foldl_cons]
    by_cases ho : o = k
    · subst ho
      have hnotin : o ∉ rest := (List.nodup_cons.mp hnd).1
      rw [foldOccs_income_get_notmem s e txn rest _ o hnotin,
        applyOcc_income]
      by_cases hty : txn.type = "income"
      · simp [hk1, hk2, hk3, hty, mapGet_mapSet_self]
      · simp [hk1, hk2, hk3, hty]
    · rw [ih (applyOcc s e txn st o) (List.nodup_cons.mp hnd).2]
      have hsame : mapGet (applyOcc s e txn st o).dailyIncome k =
          mapGet st.dailyIncome k := by
        rw [applyOcc_income]
        split
        · exact mapGet_mapSet_ne _ _ _ _ (fun he => ho he.symm)
        · rfl
      rw [hsame]
      have hiff : (k ∈ rest ∧ txn.type = "income") ↔
          (k ∈ o :: rest ∧ txn.type = "income") := by
        constructor
        · exact fun ⟨hm, ht⟩ => ⟨List.mem_cons_of_mem _ hm, ht⟩
        · rintro ⟨hm, ht⟩
          rcases List.mem_cons.mp hm with h1 | h1
          · exact absurd h1.symm ho
          · exact ⟨h1, ht⟩
      rw [if_congr hiff rfl rfl]

/-- Modelled from the spec (§4.2 step 2), for comparison with the code:
the balance obtained by folding only the occurrence dates strictly
before the window start into the starting balance, in transaction order,
cent-rounding after each fold. -/
def preWindowBalance (startUTC endUTC : JsDate) (he : JsNorm endUTC)
    (startingBalance : ℚ) (txns : List Txn) : ℚ :=
  txns.foldl
    (fun b txn =>
      (generateOccurrences txn endUTC he).foldl
        (fun b2 occ =>
          if jsLt (.valid occ) startUTC then round2 (b2 + signedAmount txn)
          else b2) b)
    startingBalance

theorem phase1_fold_balance (s e : JsDate) (he : JsNorm e) (txns : List Txn)
    (st : LedgerState) :
    (txns.foldl (applyTxn s e he) st).balance =
      txns.foldl
        (fun b txn =>
          (generateOccurrences txn e he).foldl
            (fun b2 occ =>
              if jsLt (.valid occ) s then round2 (b2 + signedAmount txn)
              else b2) b)
        st.balance := by
  induction txns generalizing st with
  | nil => rfl
  | cons txn rest ih =>
    rw [List.foldl_cons, List.foldl_cons, ih]
    unfold applyTxn
    rw [foldOccs_balance]

/-- The code's first phase computes exactly the spec's pre-window fold
in its balance accumulator. -/
theorem phase1_balance (s e : JsDate) (he : JsNorm e) (bal : ℚ)
    (txns : List Txn) :
    (phase1 s e he bal txns).balance = preWindowBalance s e he bal txns := by
  unfold phase1 preWindowBalance
  rw [phase1_fold_balance]

theorem phase1_fold_expense_get (s e : JsDate) (he : JsNorm e)
    (txns : List Txn) (st : LedgerState) (k : CalDate)
    (hk1 : ¬ jsLt (.valid k) s) (hk2 : jsLe s (.valid k))
    (hk3 : jsLe (.valid k) e) :
    mapGet ((txns.foldl (applyTxn s e he) st).dailyExpenses) k =
      mapGet st.dailyExpenses k ++
        txns.filter
          (fun t => decide (t.type ≠ "income" ∧ k ∈ generateOccurrences t e he)) := by
  induction txns generalizing st with
  | nil => simp
  | cons txn rest ih =>
    rw [List.foldl_cons, ih]
    show mapGet (applyTxn s e he st txn).dailyExpenses k ++ _ = _
    unfold applyTxn
    rw [foldOccs_expense_get s e txn _ _ _ (occurrences_nodup txn e he)
      hk1 hk2 hk3]
    rw [List.filter_cons]
    by_cases hpred : txn.type ≠ "income" ∧ k ∈ generateOccurrences txn e he
    · rw [if_pos (by exact ⟨hpred.2, hpred.1⟩), if_pos (by simpa using hpred)]
      simp
    · rw [if_neg (fun hcon => hpred ⟨hcon.2, hcon.1⟩),
        if_neg (by simpa using hpred)]
      simp

theorem phase1_expense_get (s e : JsDate) (he : JsNorm e) (bal : ℚ)
    (txns : List Txn) (k : CalDate)
    (hk1 : ¬ jsLt (.valid k) s) (hk2 : jsLe s (.valid k))
    (hk3 : jsLe (.valid k) e) :
    mapGet ((phase1 s e he bal txns).dailyExpenses) k =
      txns.filter
        (fun t => decide (t.type ≠ "income" ∧ k ∈ generateOccurrences t e he)) := by
  unfold phase1
  rw [phase1_fold_expense_get s e he txns _ k hk1 hk2 hk3]
  rfl

theorem phase1_fold_income_get (s e : JsDate) (he : JsNorm e)
    (txns : List Txn) (st : LedgerState) (k : CalDate)
    (hk1 : ¬ jsLt (.valid k) s) (hk2 : jsLe s (.valid k))
    (hk3 : jsLe (.valid k) e) :
    mapGet ((txns.foldl (applyTxn s e he) st).dailyIncome) k =
      mapGet st.dailyIncome k ++
        txns.filter
          (fun t => decide (t.type = "income" ∧ k ∈ generateOccurrences t e he)) := by
  induction txns generalizing st with
  | nil => simp
  | cons txn rest ih =>
    rw [List.foldl_cons, ih]
    show mapGet (applyTxn s e he st txn).dailyIncome k ++ _ = _
    unfold applyTxn
    rw [foldOccs_income_get s e txn _ _ _ (occurrences_nodup txn e he)
      hk1 hk2 hk3]
    rw [List.filter_cons]
    by_cases hpred : txn.type = "income" ∧ k ∈ generateOccurrences txn e he
    · rw [if_pos (by exact ⟨hpred.2, hpred.1⟩), if_pos (by simpa using hpred)]
      simp
    · rw [if_neg (fun hcon => hpred ⟨hcon.2, hcon.1⟩),
        if_neg (by simpa using hpred)]
      simp

theorem phase1_income_get (s e : JsDate) (he : JsNorm e) (bal : ℚ)
    (txns : List Txn) (k : CalDate)
    (hk1 : ¬ jsLt (.valid k) s) (hk2 : jsLe s (.valid k))
    (hk3 : jsLe (.valid k) e) :
    mapGet ((phase1 s e he bal txns).dailyIncome) k =
      txns.filter
        (fun t => decide (t.type = "income" ∧ k ∈ generateOccurrences t e he)) := by
  unfold phase1
  rw [phase1_fold_income_get s e he txns _ k hk1 hk2 hk3]
  rfl

theorem insertByName_perm (cmp : String → String → Int) (x : String × ℚ)
    (l : List (String × ℚ)) : (insertByName cmp x l).Perm (x :: l) := by
  induction l with
  | nil => exact List.Perm.refl _
  | cons y ys ih =>
    show (if cmp x.1 y.1 ≤ 0 then x :: y :: ys else y :: insertByName cmp x ys).Perm _
    split
    · exact List.Perm.refl _
    · exact (ih.cons y).trans (List.Perm.swap x y ys)

theorem sortByName_perm (cmp : String → String → Int)
    (l : List (String × ℚ)) : (sortByName cmp l).Perm l := by
  induction l with
  | nil => exact List.Perm.refl _
  | cons x xs ih =>
    show (insertByName cmp x (sortByName cmp xs)).Perm _
    exact (insertByName_perm cmp x _).trans (ih.cons x)

theorem mem_sortByName (cmp : String → String → Int) (l : List (String × ℚ))
    (p : String × ℚ) : p ∈ sortByName cmp l ↔ p ∈ l :=
  (sortByName_perm cmp l).mem_iff

theorem foldl_add_snd (l : List (String × ℚ)) (a : ℚ) :
    l.foldl (fun s e2 => s + e2.2) a = a + (l.map Prod.snd).sum := by
  induction l generalizing a with
  | nil => simp
  | cons x xs ih => simp [ih, add_assoc]

theorem foldl_add_q (l : List ℚ) (a : ℚ) :
    l.foldl (fun s v => s + v) a = a + l.sum := by
  induction l generalizing a with
  | nil => simp
  | cons x xs ih => simp [ih, add_assoc]

theorem cents_sum (l : List ℚ) (h : ∀ q ∈ l, Cents q) : Cents l.sum := by
  induction l with
  | nil => exact cents_zero
  | cons x xs ih =>
    rw [List.sum_cons]
    exact cents_add _ _ (h x (List.mem_cons_self _ _))
      (ih (fun q hq => h q (List.mem_cons_of_mem _ hq)))

theorem dayEntry_date (cmp : String → String → Int)
    (di de : List (CalDate × List Txn)) (c : CalDate) (b : ℚ) :
    (dayEntry cmp di de c b).date = c := rfl

theorem dayEntry_startBal (cmp : String → String → Int)
    (di de : List (CalDate × List Txn)) (c : CalDate) (b : ℚ) :
    (dayEntry cmp di de c b).startingBalance = round2 b := rfl

theorem dayEntry_expenses (cmp : String → String → Int)
    (di de : List (CalDate × List Txn)) (c : CalDate) (b : ℚ) :
    (dayEntry cmp di de c b).expenses =
      sortByName cmp ((mapGet de c).map (fun t => (t.name, t.amount))) := rfl

theorem dayEntry_totalIncome (cmp : String → String → Int)
    (di de : List (CalDate × List Txn)) (c : CalDate) (b : ℚ) :
    (dayEntry cmp di de c b).totalIncome =
      round2 (((mapGet di c).map (fun t => t.amount)).sum) := by
  show round2 (((mapGet di c).map (fun t => t.amount)).foldl
    (fun s v => s + v) 0) = _
  rw [foldl_add_q]
  rw [zero_add]

theorem dayEntry_ending (cmp : String → String → Int)
    (di de : List (CalDate × List Txn)) (c : CalDate) (b : ℚ) :
    (dayEntry cmp di de c b).endingBalance =
      round2 ((dayEntry cmp di de c b).startingBalance +
        (dayEntry cmp di de c b).totalIncome -
        round2 (((dayEntry cmp di de c b).expenses.map Prod.snd).sum)) := by
  show round2 (_ + _ - round2 (List.foldl _ 0 _)) = _
  rw [foldl_add_snd, zero_add]
  rfl

theorem cents_ending (cmp : String → String → Int)
    (di de : List (CalDate × List Txn)) (c : CalDate) (b : ℚ) :
    Cents (dayEntry cmp di de c b).endingBalance := round2_cents _

/-- The ending-balance formula of one entry with the inner rounding of
the expense total dropped, valid when every expense amount on that day
is a whole number of cents (the data-model invariant). -/
theorem dayEntry_ending_cents (cmp : String → String → Int)
    (di de : List (CalDate × List Txn)) (c : CalDate) (b : ℚ)
    (hCents : ∀ p ∈ (dayEntry cmp di de c b).expenses, Cents p.2) :
    (dayEntry cmp di de c b).endingBalance =
      round2 ((dayEntry cmp di de c b).startingBalance +
        (dayEntry cmp di de c b).totalIncome -
        ((dayEntry cmp di de c b).expenses.map Prod.snd).sum) := by
  rw [dayEntry_ending]
  rw [round2_eq_self _ (cents_sum _ ?_)]
  intro q hq
  rw [List.mem_map] at hq
  obtain ⟨p, hp, he⟩ := hq
  subst he
  exact hCents p hp

theorem ledgerLoop_invalid (cmp : String → String → Int) (e : JsDate)
    (he : JsNorm e) (di de : List (CalDate × List Txn))
    (hc : JsNorm .invalid) (b : ℚ) :
    ledgerLoop cmp e he di de .invalid hc b = [] := by
  rw [ledgerLoop]

theorem ledgerLoop_true (cmp : String → String → Int) (e : JsDate)
    (he : JsNorm e) (di de : List (CalDate × List Txn)) (c : CalDate)
    (hc : JsNorm (.valid c)) (b : ℚ) (h : jsLe (.valid c) e) :
    ledgerLoop cmp e he di de (.valid c) hc b =
      dayEntry cmp di de c b ::
        ledgerLoop cmp e he di de (.valid (setDay c (c.day + 1)))
          (setDay_norm _ _) (dayEntry cmp di de c b).endingBalance := by
  rw [ledgerLoop]
  exact dif_pos h

theorem ledgerLoop_false (cmp : String → String → Int) (e : JsDate)
    (he : JsNorm e) (di de : List (CalDate × List Txn)) (c : CalDate)
    (hc : JsNorm (.valid c)) (b : ℚ) (h : ¬ jsLe (.valid c) e) :
    ledgerLoop cmp e he di de (.valid c) hc b = [] := by
  rw [ledgerLoop]
  exact dif_neg h

/-- Every entry of the day loop is the day entry of its own date for
some running balance, and its date lies between the loop's start and
the window end. -/
theorem ledgerLoop_mem (cmp : String → String → Int) (e : JsDate)
    (he : JsNorm e) (di de : List (CalDate × List Txn)) :
    ∀ (cur : JsDate) (hc : JsNorm cur) (b : ℚ) (entry : LedgerEntry),
      entry ∈ ledgerLoop cmp e he di de cur hc b →
        (∃ c0, cur = .valid c0 ∧ lexLe c0 entry.date) ∧
          jsLe (.valid entry.date) e ∧
          ∃ b2, entry = dayEntry cmp di de entry.date b2 := by
  intro cur hc b
  induction cur, hc, b using ledgerLoop.induct cmp e he di de with
  | case1 b hc _ =>
    rw [ledgerLoop_invalid]
    intro entry h2
    cases h2
  | case2 b c hc hguard hn ih =>
    rw [ledgerLoop_true cmp e he di de c hc b hguard]
    intro entry h2
    rcases List.mem_cons.mp h2 with h3 | h3
    · subst h3
      exact ⟨⟨c, rfl, lexLe_refl c⟩, hguard, b, rfl⟩
    · obtain ⟨⟨c0, hc0, hle0⟩, hle, b2, hshape⟩ := ih entry h3
      injection hc0 with hc0
      subst hc0
      refine ⟨⟨c, rfl, ?_⟩, hle, b2, hshape⟩
      exact lexLe_trans _ _ _
        (lexLe_of_lexLt _ _ (setDay_lexLt c hc 1 (by omega))) hle0
  | case3 b c hc hguard hn =>
    rw [ledgerLoop_false cmp e he di de c hc b hguard]
    intro entry h2
    cases h2

/-- A normalized date appears among the output dates of the day loop
exactly when it lies between the loop's current date and the window
end (one entry per calendar day of the window). -/
theorem ledgerLoop_date_mem (cmp : String → String → Int) (e : JsDate)
    (he : JsNorm e) (di de : List (CalDate × List Txn)) (d : CalDate)
    (hd : Normalized d) :
    ∀ (cur : JsDate) (hc : JsNorm cur) (b : ℚ),
      d ∈ (ledgerLoop cmp e he di de cur hc b).map LedgerEntry.date ↔
        (∃ c0, cur = .valid c0 ∧ lexLe c0 d) ∧ jsLe (.valid d) e := by
  intro cur hc b
  induction cur, hc, b using ledgerLoop.induct cmp e he di de with
  | case1 b hc _ =>
    rw [ledgerLoop_invalid]
    simp
  | case2 b c hc hguard hn ih =>
    rw [ledgerLoop_true cmp e he di de c hc b hguard]
    rw [List.map_cons, List.mem_cons, dayEntry_date, ih]
    constructor
    · rintro (h3 | ⟨⟨c0, hc0, hle0⟩, hle⟩)
      · subst h3
        exact ⟨⟨d, rfl, lexLe_refl d⟩, hguard⟩
      · injection hc0 with hc0
        subst hc0
        exact ⟨⟨c, rfl,
          lexLe_trans _ _ _
            (lexLe_of_lexLt _ _ (setDay_lexLt c hc 1 (by omega))) hle0⟩, hle⟩
    · rintro ⟨⟨c0, hc0, hle0⟩, hle⟩
      injection hc0 with hc0
      subst hc0
      rcases lexLe_cases _ _ hle0 with hlt | heq
      · right
        exact ⟨⟨setDay c (c.day + 1), rfl, setDay_one_succ c d hc hd hlt⟩, hle⟩
      · left
        exact heq.symm
  | case3 b c hc hguard hn =>
    rw [ledgerLoop_false cmp e he di de c hc b hguard]
    simp only [List.map_nil, List.mem_nil_iff, false_iff]
    rintro ⟨⟨c0, hc0, hle0⟩, hle⟩
    injection hc0 with hc0
    subst hc0
    cases e with
    | invalid => exact hle
    | valid ev =>
      exact hguard (lexLe_trans _ _ _ hle0 hle)

theorem ledgerLoop_head_date (cmp : String → String → Int) (e : JsDate)
    (he : JsNorm e) (di de : List (CalDate × List Txn)) (cur : JsDate)
    (hc : JsNorm cur) (b : ℚ) :
    ∀ x ∈ ((ledgerLoop cmp e he di de cur hc b).map LedgerEntry.date).head?,
      ∃ c0, cur = .valid c0 ∧ x = c0 := by
  cases cur with
  | invalid =>
    rw [ledgerLoop_invalid]
    intro x hx
    cases hx
  | valid c =>
    by_cases h : jsLe (.valid c) e
    · rw [ledgerLoop_true cmp e he di de c hc b h]
      intro x hx
      rw [List.map_cons, List.head?_cons, Option.mem_def,
        Option.some.injEq] at hx
      exact ⟨c, rfl, by rw [← hx, dayEntry_date]⟩
    · rw [ledgerLoop_false cmp e he di de c hc b h]
      intro x hx
      cases hx

/-- The output dates of the day loop are strictly increasing. -/
theorem ledgerLoop_chain_dates (cmp : String → String → Int) (e : JsDate)
    (he : JsNorm e) (di de : List (CalDate × List Txn)) :
    ∀ (cur : JsDate) (hc : JsNorm cur) (b : ℚ),
      List.Chain' lexLt
        ((ledgerLoop cmp e he di de cur hc b).map LedgerEntry.date) := by
  intro cur hc b
  induction cur, hc, b using ledgerLoop.induct cmp e he di de with
  | case1 b hc _ =>
    rw [ledgerLoop_invalid]
    simp
  | case2 b c hc hguard hn ih =>
    rw [ledgerLoop_true cmp e he di de c hc b hguard]
    rw [List.map_cons, dayEntry_date]
    refine List.chain'_cons'.mpr ⟨?_, ih⟩
    intro y hy
    obtain ⟨c0, hc0, hx⟩ := ledgerLoop_head_date cmp e he di de _ _ _ y hy
    injection hc0 with hc0
    subst hc0
    subst hx
    exact setDay_lexLt c hc 1 (by omega)
  | case3 b c hc hguard hn =>
    rw [ledgerLoop_false cmp e he di de c hc b hguard]
    simp

theorem ledgerLoop_head_startBal (cmp : String → String → Int) (e : JsDate)
    (he : JsNorm e) (di de : List (CalDate × List Txn)) (cur : JsDate)
    (hc : JsNorm cur) (b : ℚ) :
    ∀ x ∈ (ledgerLoop cmp e he di de cur hc b).head?,
      x.startingBalance = round2 b := by
  cases cur with
  | invalid =>
    rw [ledgerLoop_invalid]
    intro x hx
    cases hx
  | valid c =>
    by_cases h : jsLe (.valid c) e
    · rw [ledgerLoop_true cmp e he di de c hc b h]
      intro x hx
      rw [List.head?_cons, Option.mem_def, Option.some.injEq] at hx
      rw [← hx, dayEntry_startBal]
    · rw [ledgerLoop_false cmp e he di de c hc b h]
      intro x hx
      cases hx

/-- Balance continuity inside the day loop: each entry's ending balance
is the next entry's starting balance. -/
theorem ledgerLoop_chain_balance (cmp : String → String → Int) (e : JsDate)
    (he : JsNorm e) (di de : List (CalDate × List Txn)) :
    ∀ (cur : JsDate) (hc : JsNorm cur) (b : ℚ),
      List.Chain' (fun x y => x.endingBalance = y.startingBalance)
        (ledgerLoop cmp e he di de cur hc b) := by
  intro cur hc b
  induction cur, hc, b using ledgerLoop.induct cmp e he di de with
  | case1 b hc _ =>
    rw [ledgerLoop_invalid]
    simp
  | case2 b c hc hguard hn ih =>
    rw [ledgerLoop_true cmp e he di de c hc b hguard]
    refine List.chain'_cons'.mpr ⟨?_, ih⟩
    intro y hy
    rw [ledgerLoop_head_startBal cmp e he di de _ _ _ y hy,
      round2_eq_self _ (cents_ending cmp di de c b)]
  | case3 b c hc hguard hn =>
    rw [ledgerLoop_false cmp e he di de c hc b hguard]
    simp

/-- The per-entry ending balance formula of the day loop, with the
expense sum not separately rounded, given cent-aligned bucket
amounts. -/
theorem ledgerLoop_ending (cmp : String → String → Int) (e : JsDate)
    (he : JsNorm e) (di de : List (CalDate × List Txn))
    (hCents : ∀ k, ∀ t ∈ mapGet de k, Cents t.amount)
    (cur : JsDate) (hc : JsNorm cur) (b : ℚ) :
    ∀ entry ∈ ledgerLoop cmp e he di de cur hc b,
      entry.endingBalance =
        round2 (entry.startingBalance + entry.totalIncome -
          (entry.expenses.map Prod.snd).sum) := by
  intro entry hmem
  obtain ⟨_, _, b2, hshape⟩ := ledgerLoop_mem cmp e he di de cur hc b entry hmem
  rw [hshape]
  apply dayEntry_ending_cents
  intro p hp
  rw [dayEntry_expenses, mem_sortByName, List.mem_map] at hp
  obtain ⟨t, ht, hpe⟩ := hp
  subst hpe
  exact hCents _ t ht

theorem round2_zero : round2 0 = 0 := round2_eq_self 0 cents_zero

theorem dayEntry_empty (cmp : String → String → Int) (c : CalDate) :
    dayEntry cmp [] [] c 0 = ⟨c, 0, 0, 0, []⟩ := by
  unfold dayEntry
  show (⟨c, round2 0, round2 (List.foldl _ 0 _), _, _⟩ : LedgerEntry) = _
  norm_num [mapGet, sortByName, round2_zero]

/-- With no bucketed transactions and a zero running balance, every
entry of the day loop is the all-zero entry of its date. -/
theorem ledgerLoop_zero (cmp : String → String → Int) (e : JsDate)
    (he : JsNorm e) :
    ∀ (cur : JsDate) (hc : JsNorm cur) (b : ℚ), b = 0 →
      ∀ entry ∈ ledgerLoop cmp e he [] [] cur hc b,
        entry = ⟨entry.date, 0, 0, 0, []⟩ := by
  intro cur hc b
  induction cur, hc, b using ledgerLoop.induct cmp e he [] [] with
  | case1 b hc _ =>
    rw [ledgerLoop_invalid]
    intro _ entry hmem
    cases hmem
  | case2 b c hc hguard hn ih =>
    rw [ledgerLoop_true cmp e he [] [] c hc b hguard]
    intro hb entry hmem
    subst hb
    rcases List.mem_cons.mp hmem with h3 | h3
    · rw [h3, dayEntry_empty]
    · refine ih ?_ entry h3
      rw [dayEntry_empty]
  | case3 b c hc hguard hn =>
    rw [ledgerLoop_false cmp e he [] [] c hc b hguard]
    intro _ entry hmem
    cases hmem

/-- `computeLedger` with its let-bindings expanded: phase 1 on the
round-tripped window bounds, then the day loop. -/
theorem computeLedger_def (cmp : String → String → Int) (sd ed : CalDate)
    (bal : ℚ) (txns : List Txn) :
    computeLedger cmp sd ed bal txns =
      ledgerLoop cmp
        ((parseDateInput (toDateInputValue ed)).getD (.valid epochDate))
        (parse_getD_norm _)
        (phase1 ((parseDateInput (toDateInputValue sd)).getD (.valid epochDate))
          ((parseDateInput (toDateInputValue ed)).getD (.valid epochDate))
          (parse_getD_norm _) bal txns).dailyIncome
        (phase1 ((parseDateInput (toDateInputValue sd)).getD (.valid epochDate))
          ((parseDateInput (toDateInputValue ed)).getD (.valid epochDate))
          (parse_getD_norm _) bal txns).dailyExpenses
        ((parseDateInput (toDateInputValue sd)).getD (.valid epochDate))
        (parse_getD_norm _)
        (phase1 ((parseDateInput (toDateInputValue sd)).getD (.valid epochDate))
          ((parseDateInput (toDateInputValue ed)).getD (.valid epochDate))
          (parse_getD_norm _) bal txns).balance := rfl

/-- On normalized window bounds with years at least 100 (so that the
round-trip through `toDateInputValue` / `parseDateInput` is not shifted
by MakeFullYear), the string round-trip inside `computeLedger` is the
identity and the function reduces to phase 1 followed by the day
loop. -/
theorem computeLedger_eq (cmp : String → String → Int) (ws we : CalDate)
    (hws : Normalized ws) (hwe : Normalized we) (hys : 100 ≤ ws.year)
    (hye : 100 ≤ we.year) (bal : ℚ) (txns : List Txn) :
    computeLedger cmp ws we bal txns =
      ledgerLoop cmp (.valid we) hwe
        (phase1 (.valid ws) (.valid we) hwe bal txns).dailyIncome
        (phase1 (.valid ws) (.valid we) hwe bal txns).dailyExpenses
        (.valid ws) hws
        (phase1 (.valid ws) (.valid we) hwe bal txns).balance := by
  unfold computeLedger
  simp only [parse_toDateInputValue ws hws hys,
    parse_toDateInputValue we hwe hye, Option.getD_some]

theorem applyOcc_expense_mem (s e : JsDate) (txn : Txn) (st : LedgerState)
    (occ : CalDate) (k : CalDate) (t : Txn)
    (h : t ∈ mapGet (applyOcc s e txn st occ).dailyExpenses k) :
    t ∈ mapGet st.dailyExpenses k ∨ t = txn := by
  rw [applyOcc_expenses] at h
  split at h
  · by_cases hk : k = occ
    · subst hk
      rw [mapGet_mapSet_self] at h
      rcases List.mem_append.mp h with h1 | h1
      · exact Or.inl h1
      · rw [List.mem_singleton] at h1
        exact Or.inr h1
    · rw [mapGet_mapSet_ne _ _ _ _ hk] at h
      exact Or.inl h
  · exact Or.inl h

theorem foldOccs_expense_mem (s e : JsDate) (txn : Txn)
    (occs : List CalDate) (st : LedgerState) (k : CalDate) (t : Txn)
    (h : t ∈ mapGet ((occs.foldl (applyOcc s e txn) st).dailyExpenses) k) :
    t ∈ mapGet st.dailyExpenses k ∨ t = txn := by
  induction occs generalizing st with
  | nil => exact Or.inl h
  | cons o rest ih =>
    rw [List.foldl_cons] at h
    rcases ih _ h with h1 | h1
    · exact applyOcc_expense_mem s e txn st o k t h1
    · exact Or.inr h1

theorem foldTxns_expense_mem (s e : JsDate) (he : JsNorm e)
    (txns : List Txn) (k : CalDate) (t : Txn) :
    ∀ st : LedgerState,
      t ∈ mapGet ((txns.foldl (applyTxn s e he) st).dailyExpenses) k →
        t ∈ mapGet st.dailyExpenses k ∨ t ∈ txns := by
  induction txns with
  | nil => exact fun st h1 => Or.inl h1
  | cons txn rest ih =>
    intro st h1
    rw [List.foldl_cons] at h1
    rcases ih _ h1 with h2 | h2
    · unfold applyTxn at h2
      rcases foldOccs_expense_mem s e txn _ _ k t h2 with h3 | h3
      · exact Or.inl h3
      · exact Or.inr (h3 ▸ List.mem_cons_self _ _)
    · exact Or.inr (List.mem_cons_of_mem _ h2)

theorem phase1_expense_mem (s e : JsDate) (he : JsNorm e) (bal : ℚ)
    (txns : List Txn) (k : CalDate) (t : Txn)
    (h : t ∈ mapGet ((phase1 s e he bal txns).dailyExpenses) k) :
    t ∈ txns := by
  rcases foldTxns_expense_mem s e he txns k t ⟨bal, [], []⟩ h with h1 | h1
  · cases h1
  · exact h1

/-- C1, counterexample: the claim says a `single` transaction with a
parseable startDate yields exactly one occurrence equal to startDate
for every rangeEnd, even `rangeEnd < startDate`.  With startDate
2024-01-02 (which parses) and rangeEnd 2024-01-01 the generator's
`while (current <= end)` guard is false at once and the result is
empty, not a one-element list. -/
theorem c1_counterexample :
    parseDateInput "2024-01-02" = some (.valid ⟨2024, 0, 2⟩) ∧
    generateOccurrences ⟨"income", "Pay", 5, "2024-01-02", "single"⟩
      (.valid ⟨2024, 0, 1⟩) (by decide) = [] ∧
    generateOccurrences ⟨"income", "Pay", 5, "2024-01-02", "single"⟩
      (.valid ⟨2024, 0, 1⟩) (by decide) ≠ [⟨2024, 0, 2⟩] := by
  have hp : parseDateInput "2024-01-02" = some (.valid ⟨2024, 0, 2⟩) := by
    simp [parseDateInput, splitDash, numValue, digitsVal, charVal, isDigitCh,
      makeFullYear, normDay, carryDay, monthLen, isLeapYear, digitChar]
  have hocc : generateOccurrences ⟨"income", "Pay", 5, "2024-01-02", "single"⟩
      (.valid ⟨2024, 0, 1⟩) (by decide) = [] := by
    rw [generateOccurrences_valid _ _ _ ⟨2024, 0, 2⟩ hp,
      occLoop_single_rule _ _ _ _ _ (by simp [frequencySteps]),
      if_neg (by decide)]
  exact ⟨hp, hocc, by rw [hocc]; simp⟩

/-- C1, amended: a transaction with `frequency = single` and a parseable
startDate yields exactly one occurrence, equal to startDate, when
startDate ≤ rangeEnd; when rangeEnd < startDate it yields no
occurrence at all (the loop guard fails before the first emission). -/
theorem c1_single_occurrence (txn : Txn) (c : CalDate) (re : JsDate)
    (he : JsNorm re) (hp : parseDateInput txn.startDate = some (.valid c))
    (hf : txn.frequency = "single") :
    generateOccurrences txn re he = if jsLe (.valid c) re then [c] else [] := by
  rw [generateOccurrences_valid _ _ _ c hp]
  have hfs : (frequencySteps txn.frequency).getD .singleR = .singleR := by
    rw [hf]
    simp [frequencySteps]
  rw [occLoop_single_rule _ _ _ _ _ hfs]

theorem c1_witness :
    parseDateInput "2024-03-10" = some (.valid ⟨2024, 2, 10⟩) ∧
    ((⟨"income", "Pay", 5, "2024-03-10", "single"⟩ : Txn).frequency = "single") ∧
    generateOccurrences ⟨"income", "Pay", 5, "2024-03-10", "single"⟩
        (.valid ⟨2024, 5, 1⟩) (by decide) =
      if jsLe (.valid ⟨2024, 2, 10⟩) (.valid ⟨2024, 5, 1⟩) then [⟨2024, 2, 10⟩]
      else [] := by
  have hp : parseDateInput "2024-03-10" = some (.valid ⟨2024, 2, 10⟩) := by
    simp [parseDateInput, splitDash, numValue, digitsVal, charVal, isDigitCh,
      makeFullYear, normDay, carryDay, monthLen, isLeapYear, digitChar]
  exact ⟨hp, rfl, c1_single_occurrence _ _ _ _ hp rfl⟩

/-- C2, counterexample: the claim says month stepping re-attempts the
original day-of-month 31 each step, so that from startDate 2024-01-31
the March occurrence would be 2024-03-31.  The code's `addMonths` takes
the day from the current (already clamped) date, so the third monthly
occurrence from 2024-01-31 is 2024-03-29, not 2024-03-31. -/
theorem c2_counterexample :
    (generateOccurrences ⟨"expense", "Lease", 900, "2024-01-31", "monthly"⟩
        (.valid ⟨2024, 2, 31⟩) (by decide)).get? 2 = some ⟨2024, 2, 29⟩ ∧
    (generateOccurrences ⟨"expense", "Lease", 900, "2024-01-31", "monthly"⟩
        (.valid ⟨2024, 2, 31⟩) (by decide)).get? 2 ≠ some ⟨2024, 2, 31⟩ := by
  have hp : parseDateInput "2024-01-31" = some (.valid ⟨2024, 0, 31⟩) := by
    simp [parseDateInput, splitDash, numValue, digitsVal, charVal, isDigitCh,
      makeFullYear, normDay, carryDay, monthLen, isLeapYear, digitChar]
  have s1 : addMonths ⟨2024, 0, 31⟩ 1 = ⟨2024, 1, 29⟩ := by
    rw [addMonths_eq _ (by decide) 1]; decide
  have s2 : addMonths ⟨2024, 1, 29⟩ 1 = ⟨2024, 2, 29⟩ := by
    rw [addMonths_eq _ (by decide) 1]; decide
  have s3 : addMonths ⟨2024, 2, 29⟩ 1 = ⟨2024, 3, 29⟩ := by
    rw [addMonths_eq _ (by decide) 1]; decide
  have hlist : generateOccurrences
      ⟨"expense", "Lease", 900, "2024-01-31", "monthly"⟩
      (.valid ⟨2024, 2, 31⟩) (by decide) =
      [⟨2024, 0, 31⟩, ⟨2024, 1, 29⟩, ⟨2024, 2, 29⟩] := by
    rw [generateOccurrences_valid _ _ _ ⟨2024, 0, 31⟩ hp]
    show occLoop "monthly" _ _ _ _ = _
    rw [occLoop_monthly, if_pos (by decide)]
    simp only [s1]
    rw [occLoop_monthly, if_pos (by decide)]
    simp only [s2]
    rw [occLoop_monthly, if_pos (by decide)]
    simp only [s3]
    rw [occLoop_monthly, if_neg (by decide)]
  rw [hlist]
  constructor
  · rfl
  · simp

/-- C2, amended: each month step clamps the *current* date's
day-of-month to the target month, carrying forward a previously clamped
day: stepping monthly from 2024-01-31 gives February 2024-02-29, and the
March step starts from the clamped day 29, yielding 2024-03-29. -/
theorem c2_carried_clamp :
    generateOccurrences ⟨"expense", "Lease", 900, "2024-01-31", "monthly"⟩
        (.valid ⟨2024, 2, 31⟩) (by decide) =
      [⟨2024, 0, 31⟩, ⟨2024, 1, 29⟩, ⟨2024, 2, 29⟩] ∧
    addMonths ⟨2024, 1, 29⟩ 1 = ⟨2024, 2, 29⟩ := by
  have hp : parseDateInput "2024-01-31" = some (.valid ⟨2024, 0, 31⟩) := by
    simp [parseDateInput, splitDash, numValue, digitsVal, charVal, isDigitCh,
      makeFullYear, normDay, carryDay, monthLen, isLeapYear, digitChar]
  have s1 : addMonths ⟨2024, 0, 31⟩ 1 = ⟨2024, 1, 29⟩ := by
    rw [addMonths_eq _ (by decide) 1]; decide
  have s2 : addMonths ⟨2024, 1, 29⟩ 1 = ⟨2024, 2, 29⟩ := by
    rw [addMonths_eq _ (by decide) 1]; decide
  have s3 : addMonths ⟨2024, 2, 29⟩ 1 = ⟨2024, 3, 29⟩ := by
    rw [addMonths_eq _ (by decide) 1]; decide
  refine ⟨?_, s2⟩
  rw [generateOccurrences_valid _ _ _ ⟨2024, 0, 31⟩ hp]
  show occLoop "monthly" _ _ _ _ = _
  rw [occLoop_monthly, if_pos (by decide)]
  simp only [s1]
  rw [occLoop_monthly, if_pos (by decide)]
  simp only [s2]
  rw [occLoop_monthly, if_pos (by decide)]
  simp only [s3]
  rw [occLoop_monthly, if_neg (by decide)]

/-- C3: a `monthly` transaction starting 2024-01-31 with rangeEnd
2024-04-30 yields [2024-01-31, 2024-02-29, 2024-03-29, 2024-04-29]: the
February occurrence is the leap-year clamp 2024-02-29 (not an
overflowed 2024-03-02), and the clamp is applied on every step. -/
theorem c3_monthly_clamp_sequence :
    generateOccurrences ⟨"expense", "Rent", 1500, "2024-01-31", "monthly"⟩
        (.valid ⟨2024, 3, 30⟩) (by decide) =
      [⟨2024, 0, 31⟩, ⟨2024, 1, 29⟩, ⟨2024, 2, 29⟩, ⟨2024, 3, 29⟩] := by
  have hp : parseDateInput "2024-01-31" = some (.valid ⟨2024, 0, 31⟩) := by
    simp [parseDateInput, splitDash, numValue, digitsVal, charVal, isDigitCh,
      makeFullYear, normDay, carryDay, monthLen, isLeapYear, digitChar]
  have s1 : addMonths ⟨2024, 0, 31⟩ 1 = ⟨2024, 1, 29⟩ := by
    rw [addMonths_eq _ (by decide) 1]; decide
  have s2 : addMonths ⟨2024, 1, 29⟩ 1 = ⟨2024, 2, 29⟩ := by
    rw [addMonths_eq _ (by decide) 1]; decide
  have s3 : addMonths ⟨2024, 2, 29⟩ 1 = ⟨2024, 3, 29⟩ := by
    rw [addMonths_eq _ (by decide) 1]; decide
  have s4 : addMonths ⟨2024, 3, 29⟩ 1 = ⟨2024, 4, 29⟩ := by
    rw [addMonths_eq _ (by decide) 1]; decide
  rw [generateOccurrences_valid _ _ _ ⟨2024, 0, 31⟩ hp]
  show occLoop "monthly" _ _ _ _ = _
  rw [occLoop_monthly, if_pos (by decide)]
  simp only [s1]
  rw [occLoop_monthly, if_pos (by decide)]
  simp only [s2]
  rw [occLoop_monthly, if_pos (by decide)]
  simp only [s3]
  rw [occLoop_monthly, if_pos (by decide)]
  simp only [s4]
  rw [occLoop_monthly, if_neg (by decide)]

theorem digit_ne_dash (ch : Char) (h : isDigitCh ch = true) : ch ≠ '-' := by
  intro he
  subst he
  exact absurd h (by decide)

/-- C10: `parseDateInput` does not range-check the date components: any
three dash-separated decimal-digit parts produce the UTC-normalized
date (`Date.UTC` applies MakeFullYear to the year — parts 0..99 become
1900 + part — and carries overflowing months and days), never a
rejection; concretely, "2024-02-31" parses to 2024-03-02, and
`generateOccurrences` for such a startDate emits occurrences beginning
at the normalized date rather than the empty sequence.  The size bounds
keep the statement inside the JS time-value range the model covers. -/
theorem c10_no_range_check :
    (∀ s1 s2 s3 : List Char,
        s1 ≠ [] → s1.all isDigitCh = true →
        s2 ≠ [] → s2.all isDigitCh = true →
        s3 ≠ [] → s3.all isDigitCh = true →
        digitsVal s1 ≤ 200000 → digitsVal s2 ≤ 1000 → digitsVal s3 ≤ 1000 →
        parseDateInput (String.mk (s1 ++ '-' :: s2 ++ '-' :: s3)) =
          some (.valid (normDay (makeFullYear (digitsVal s1))
            ((digitsVal s2 : Int) - 1) (digitsVal s3)))) ∧
    parseDateInput "2024-02-31" = some (.valid ⟨2024, 2, 2⟩) ∧
    ((⟨2024, 2, 2⟩ : CalDate) ≠ ⟨2024, 1, 31⟩) ∧
    generateOccurrences ⟨"expense", "X", 1, "2024-02-31", "single"⟩
      (.valid ⟨2024, 11, 31⟩) (by decide) = [⟨2024, 2, 2⟩] := by
  have hgen : ∀ s1 s2 s3 : List Char,
      s1 ≠ [] → s1.all isDigitCh = true →
      s2 ≠ [] → s2.all isDigitCh = true →
      s3 ≠ [] → s3.all isDigitCh = true →
      digitsVal s1 ≤ 200000 → digitsVal s2 ≤ 1000 → digitsVal s3 ≤ 1000 →
      parseDateInput (String.mk (s1 ++ '-' :: s2 ++ '-' :: s3)) =
        some (.valid (normDay (makeFullYear (digitsVal s1))
          ((digitsVal s2 : Int) - 1) (digitsVal s3))) := by
    intro s1 s2 s3 h1e h1d h2e h2d h3e h3d _ _ _
    unfold parseDateInput
    have hdata : (String.mk (s1 ++ '-' :: s2 ++ '-' :: s3)).data =
        s1 ++ '-' :: (s2 ++ '-' :: s3) := by simp
    rw [hdata,
      splitDash_append _ _
        (fun ch hch => digit_ne_dash ch (List.all_eq_true.mp h1d ch hch)),
      splitDash_append _ _
        (fun ch hch => digit_ne_dash ch (List.all_eq_true.mp h2d ch hch)),
      splitDash_nodash _
        (fun ch hch => digit_ne_dash ch (List.all_eq_true.mp h3d ch hch))]
    have hv1 : numValue s1 = some ((digitsVal s1 : Int)) := by
      unfold numValue
      rw [if_neg (by simpa using h1e), if_pos h1d]
    have hv2 : numValue s2 = some ((digitsVal s2 : Int)) := by
      unfold numValue
      rw [if_neg (by simpa using h2e), if_pos h2d]
    have hv3 : numValue s3 = some ((digitsVal s3 : Int)) := by
      unfold numValue
      rw [if_neg (by simpa using h3e), if_pos h3d]
    simp only [hv1, hv2, hv3]
  have hp : parseDateInput "2024-02-31" = some (.valid ⟨2024, 2, 2⟩) := by
    simp [parseDateInput, splitDash, numValue, digitsVal, charVal, isDigitCh,
      makeFullYear, normDay, carryDay, monthLen, isLeapYear, digitChar]
  refine ⟨hgen, hp, by decide, ?_⟩
  rw [generateOccurrences_valid _ _ _ ⟨2024, 2, 2⟩ hp,
    occLoop_single_rule _ _ _ _ _ (by simp [frequencySteps]),
    if_pos (by decide)]

theorem c10_witness :
    ((['2', '0', '2', '4'] : List Char) ≠ [] ∧
      ['2', '0', '2', '4'].all isDigitCh = true ∧
      (['0', '2'] : List Char) ≠ [] ∧ ['0', '2'].all isDigitCh = true ∧
      (['3', '1'] : List Char) ≠ [] ∧ ['3', '1'].all isDigitCh = true ∧
      digitsVal ['2', '0', '2', '4'] ≤ 200000 ∧
      digitsVal ['0', '2'] ≤ 1000 ∧ digitsVal ['3', '1'] ≤ 1000) ∧
    parseDateInput
        (String.mk (['2', '0', '2', '4'] ++ '-' :: ['0', '2'] ++
          '-' :: ['3', '1'])) =
      some (.valid (normDay (makeFullYear (digitsVal ['2', '0', '2', '4']))
        ((digitsVal ['0', '2'] : Int) - 1) (digitsVal ['3', '1']))) :=
  ⟨⟨by decide, by decide, by decide, by decide, by decide, by decide,
    by decide, by decide, by decide⟩,
    c10_no_range_check.1 _ _ _ (by decide) (by decide) (by decide) (by decide)
      (by decide) (by decide) (by decide) (by decide) (by decide)⟩

theorem lexLt_not_le (a b : CalDate) (h : lexLt a b) : ¬ lexLe b a := by
  unfold lexLt at h
  unfold lexLe
  omega

theorem not_lexLt_of_lexLe (a b : CalDate) (h : lexLe a b) : ¬ lexLt b a := by
  unfold lexLe at h
  unfold lexLt
  omega

/-- C4, counterexample to the original claim: with
windowStart = windowEnd = year-50 Jan 1 (a normalized bound with
non-negative year), `computeLedger` emits exactly one entry, but its
date is 1950-01-01, not year-50 Jan 1: the round-trip of the window
bounds through `toDateInputValue` / `parseDateInput` passes the year
through `Date.UTC`, whose MakeFullYear step maps years 0..99 to
1900 + year.  So the window day year-50 Jan 1 itself never appears
among the output dates, refuting one-entry-per-day-of-the-window on
this input. -/
theorem c4_counterexample :
    Normalized ⟨50, 0, 1⟩ ∧ (0 : Int) ≤ (⟨50, 0, 1⟩ : CalDate).year ∧
    lexLe ⟨50, 0, 1⟩ ⟨50, 0, 1⟩ ∧
    (computeLedger (fun _ _ => 0) ⟨50, 0, 1⟩ ⟨50, 0, 1⟩ 0 []).map
      LedgerEntry.date = [⟨1950, 0, 1⟩] ∧
    (⟨50, 0, 1⟩ : CalDate) ∉
      (computeLedger (fun _ _ => 0) ⟨50, 0, 1⟩ ⟨50, 0, 1⟩ 0 []).map
        LedgerEntry.date := by
  have h50 : natToChars (Int.toNat 50) = ['5', '0'] := by
    rw [natToChars, if_neg (by omega), natToChars, if_pos (by omega)]
    decide
  have h1 : natToChars 1 = ['1'] := by
    rw [natToChars, if_pos (by omega)]
    decide
  have hstr : toDateInputValue ⟨50, 0, 1⟩ = "50-01-01" := by
    simp only [toDateInputValue, intToChars, pad2]
    norm_num [h50, h1]
  have hp50 : (parseDateInput (toDateInputValue ⟨50, 0, 1⟩)).getD
      (.valid epochDate) = .valid ⟨1950, 0, 1⟩ := by
    rw [hstr]
    have hp : parseDateInput "50-01-01" = some (.valid ⟨1950, 0, 1⟩) := by
      simp [parseDateInput, splitDash, numValue, digitsVal, charVal, isDigitCh,
        makeFullYear, normDay, carryDay, monthLen, isLeapYear, digitChar]
    rw [hp]
    rfl
  have hmap : (computeLedger (fun _ _ => 0) ⟨50, 0, 1⟩ ⟨50, 0, 1⟩ 0 []).map
      LedgerEntry.date = [⟨1950, 0, 1⟩] := by
    rw [computeLedger_def]
    simp only [hp50]
    rw [ledgerLoop_true _ _ _ _ _ _ _ _
        (show jsLe (.valid ⟨1950, 0, 1⟩) (.valid ⟨1950, 0, 1⟩) from
          lexLe_refl _),
      ledgerLoop_false _ _ _ _ _ _ _ _
        (show ¬ jsLe
            (.valid (setDay ⟨1950, 0, 1⟩ ((⟨1950, 0, 1⟩ : CalDate).day + 1)))
            (.valid ⟨1950, 0, 1⟩) from
          fun hcon => lexLt_not_le ⟨1950, 0, 1⟩ _
            (setDay_lexLt ⟨1950, 0, 1⟩ (by decide) 1 (by omega)) hcon)]
    rw [List.map_cons, List.map_nil, dayEntry_date]
  refine ⟨by decide, by decide, by decide, hmap, ?_⟩
  rw [hmap]
  decide

/-- C4, amended: for every windowStart ≤ windowEnd (normalized window
bounds whose years are at least 100, below which the source's
round-trip of the bounds through `Date.UTC` applies MakeFullYear and
shifts the window), `computeLedger` returns exactly one entry per
calendar day of the inclusive window, in ascending date order: a
normalized date is among the output dates iff it lies in
[windowStart, windowEnd], and the output dates are strictly increasing
(so no day appears twice); windowStart = windowEnd yields exactly one
entry, and an empty transaction list with zero starting balance still
yields one all-zero entry per day. -/
theorem c4_one_entry_per_day (cmp : String → String → Int) (ws we : CalDate)
    (bal : ℚ) (txns : List Txn) (hws : Normalized ws) (hwe : Normalized we)
    (hys : 100 ≤ ws.year) (hye : 100 ≤ we.year) (hle : lexLe ws we) :
    (∀ d : CalDate, Normalized d →
        (d ∈ (computeLedger cmp ws we bal txns).map LedgerEntry.date ↔
          (lexLe ws d ∧ lexLe d we))) ∧
    List.Chain' lexLt
      ((computeLedger cmp ws we bal txns).map LedgerEntry.date) ∧
    (ws = we → (computeLedger cmp ws we bal txns).length = 1) ∧
    (txns = [] → bal = 0 →
      ∀ entry ∈ computeLedger cmp ws we bal txns,
        entry = ⟨entry.date, 0, 0, 0, []⟩) := by
  rw [computeLedger_eq cmp ws we hws hwe hys hye bal txns]
  refine ⟨?_, ?_, ?_, ?_⟩
  · intro d hd
    rw [ledgerLoop_date_mem cmp (.valid we) hwe _ _ d hd]
    constructor
    · rintro ⟨⟨c0, hc0, h1⟩, h2⟩
      injection hc0 with hc0
      subst hc0
      exact ⟨h1, h2⟩
    · rintro ⟨h1, h2⟩
      exact ⟨⟨ws, rfl, h1⟩, h2⟩
  · exact ledgerLoop_chain_dates cmp (.valid we) hwe _ _ _ _ _
  · intro heq
    subst heq
    rw [ledgerLoop_true _ _ _ _ _ _ _ _
        (show jsLe (.valid ws) (.valid ws) from lexLe_refl ws),
      ledgerLoop_false _ _ _ _ _ _ _ _
        (show ¬ jsLe (.valid (setDay ws (ws.day + 1))) (.valid ws) from
          fun hcon => lexLt_not_le ws _ (setDay_lexLt ws hws 1 (by omega)) hcon)]
    rfl
  · intro htx hb
    subst htx
    subst hb
    exact ledgerLoop_zero cmp (.valid we) hwe (.valid ws) hws 0 rfl

theorem c4_witness :
    Normalized ⟨2024, 0, 1⟩ ∧ Normalized ⟨2024, 0, 3⟩ ∧
    (100 : Int) ≤ (⟨2024, 0, 1⟩ : CalDate).year ∧
    lexLe ⟨2024, 0, 1⟩ ⟨2024, 0, 3⟩ ∧
    ((∀ d : CalDate, Normalized d →
        (d ∈ (computeLedger (fun _ _ => 0) ⟨2024, 0, 1⟩ ⟨2024, 0, 3⟩ 0 []).map
            LedgerEntry.date ↔
          (lexLe ⟨2024, 0, 1⟩ d ∧ lexLe d ⟨2024, 0, 3⟩))) ∧
      List.Chain' lexLt
        ((computeLedger (fun _ _ => 0) ⟨2024, 0, 1⟩ ⟨2024, 0, 3⟩ 0 []).map
          LedgerEntry.date) ∧
      ((⟨2024, 0, 1⟩ : CalDate) = ⟨2024, 0, 3⟩ →
        (computeLedger (fun _ _ => 0) ⟨2024, 0, 1⟩ ⟨2024, 0, 3⟩ 0 []).length = 1) ∧
      (([] : List Txn) = [] → (0 : ℚ) = 0 →
        ∀ entry ∈ computeLedger (fun _ _ => 0) ⟨2024, 0, 1⟩ ⟨2024, 0, 3⟩ 0 [],
          entry = ⟨entry.date, 0, 0, 0, []⟩)) :=
  ⟨by decide, by decide, by decide, by decide,
    c4_one_entry_per_day (fun _ _ => 0) ⟨2024, 0, 1⟩ ⟨2024, 0, 3⟩ 0 []
      (by decide) (by decide) (by decide) (by decide) (by decide)⟩

/-- C5: in every ledger produced by `computeLedger` over normalized
window bounds, each entry's ending balance equals the next entry's
starting balance, and (for cent-aligned stored amounts, the data-model
invariant) each ending balance is the cent-rounding of starting balance
plus total income minus the sum of the entry's expense amounts. -/
theorem c5_balance_continuity (cmp : String → String → Int) (ws we : CalDate)
    (bal : ℚ) (txns : List Txn) (hws : Normalized ws) (hwe : Normalized we)
    (hys : 0 ≤ ws.year) (hye : 0 ≤ we.year)
    (hC : ∀ t ∈ txns, Cents t.amount) :
    List.Chain' (fun x y => x.endingBalance = y.startingBalance)
      (computeLedger cmp ws we bal txns) ∧
    ∀ entry ∈ computeLedger cmp ws we bal txns,
      entry.endingBalance =
        round2 (entry.startingBalance + entry.totalIncome -
          (entry.expenses.map Prod.snd).sum) := by
  rw [computeLedger_def]
  constructor
  · exact ledgerLoop_chain_balance _ _ _ _ _ _ _ _
  · exact ledgerLoop_ending _ _ _ _ _
      (fun k t ht => hC t (phase1_expense_mem _ _ _ _ _ k t ht)) _ _ _

theorem c5_witness :
    Normalized ⟨2024, 0, 1⟩ ∧ Normalized ⟨2024, 0, 2⟩ ∧
    (∀ t ∈ [(⟨"expense", "Rent", 1500, "2024-01-01", "single"⟩ : Txn)],
      Cents t.amount) ∧
    (List.Chain' (fun x y => x.endingBalance = y.startingBalance)
      (computeLedger (fun _ _ => 0) ⟨2024, 0, 1⟩ ⟨2024, 0, 2⟩ 100
        [⟨"expense", "Rent", 1500, "2024-01-01", "single"⟩]) ∧
    ∀ entry ∈ computeLedger (fun _ _ => 0) ⟨2024, 0, 1⟩ ⟨2024, 0, 2⟩ 100
        [⟨"expense", "Rent", 1500, "2024-01-01", "single"⟩],
      entry.endingBalance =
        round2 (entry.startingBalance + entry.totalIncome -
          (entry.expenses.map Prod.snd).sum)) := by
  have hC : ∀ t ∈ [(⟨"expense", "Rent", 1500, "2024-01-01", "single"⟩ : Txn)],
      Cents t.amount := by
    intro t ht
    rw [List.mem_singleton] at ht
    subst ht
    exact ⟨150000, by norm_num⟩
  exact ⟨by decide, by decide, hC,
    c5_balance_continuity (fun _ _ => 0) ⟨2024, 0, 1⟩ ⟨2024, 0, 2⟩ 100 _
      (by decide) (by decide) (by decide) (by decide) hC⟩

/-- C6, counterexample to the original claim: with window bounds at
year-50 Jan 10..12 (normalized, non-negative year) and a single income
transaction of 10 dated 1000-01-01, the first entry's opening balance is
10, yet the spec's pre-window fold over occurrences strictly before
windowStart leaves the starting balance 0 — the year-1000 occurrence is
*not* before the year-50 windowStart.  The code folds it anyway, because
the round-trip of the window bounds through `Date.UTC` applies
MakeFullYear and shifts the window to 1950, and the occurrence falls
before the shifted start. -/
theorem c6_counterexample :
    Normalized ⟨50, 0, 10⟩ ∧ Normalized ⟨50, 0, 12⟩ ∧
    (0 : Int) ≤ (⟨50, 0, 10⟩ : CalDate).year ∧
    ¬ jsLt (.valid ⟨1000, 0, 1⟩) (.valid ⟨50, 0, 10⟩) ∧
    ((computeLedger (fun _ _ => 0) ⟨50, 0, 10⟩ ⟨50, 0, 12⟩ 0
        [⟨"income", "Old", 10, "1000-01-01", "single"⟩]).head?.map
      LedgerEntry.startingBalance) = some 10 ∧
    round2 (preWindowBalance (.valid ⟨50, 0, 10⟩) (.valid ⟨50, 0, 12⟩)
      (by decide) 0 [⟨"income", "Old", 10, "1000-01-01", "single"⟩]) = 0 ∧
    (10 : ℚ) ≠ 0 := by
  have h50 : natToChars (Int.toNat 50) = ['5', '0'] := by
    rw [natToChars, if_neg (by omega), natToChars, if_pos (by omega)]
    decide
  have h10 : natToChars (Int.toNat 10) = ['1', '0'] := by
    rw [natToChars, if_neg (by omega), natToChars, if_pos (by omega)]
    decide
  have h12 : natToChars (Int.toNat 12) = ['1', '2'] := by
    rw [natToChars, if_neg (by omega), natToChars, if_pos (by omega)]
    decide
  have h1 : natToChars 1 = ['1'] := by
    rw [natToChars, if_pos (by omega)]
    decide
  have hps : (parseDateInput (toDateInputValue ⟨50, 0, 10⟩)).getD
      (.valid epochDate) = .valid ⟨1950, 0, 10⟩ := by
    have hstr : toDateInputValue ⟨50, 0, 10⟩ = "50-01-10" := by
      simp only [toDateInputValue, intToChars, pad2]
      norm_num [h50, h10, h1]
    rw [hstr]
    have hp : parseDateInput "50-01-10" = some (.valid ⟨1950, 0, 10⟩) := by
      simp [parseDateInput, splitDash, numValue, digitsVal, charVal, isDigitCh,
        makeFullYear, normDay, carryDay, monthLen, isLeapYear, digitChar]
    rw [hp]
    rfl
  have hpe : (parseDateInput (toDateInputValue ⟨50, 0, 12⟩)).getD
      (.valid epochDate) = .valid ⟨1950, 0, 12⟩ := by
    have hstr : toDateInputValue ⟨50, 0, 12⟩ = "50-01-12" := by
      simp only [toDateInputValue, intToChars, pad2]
      norm_num [h50, h12, h1]
    rw [hstr]
    have hp : parseDateInput "50-01-12" = some (.valid ⟨1950, 0, 12⟩) := by
      simp [parseDateInput, splitDash, numValue, digitsVal, charVal, isDigitCh,
        makeFullYear, normDay, carryDay, monthLen, isLeapYear, digitChar]
    rw [hp]
    rfl
  have hpt : parseDateInput "1000-01-01" = some (.valid ⟨1000, 0, 1⟩) := by
    simp [parseDateInput, splitDash, numValue, digitsVal, charVal, isDigitCh,
      makeFullYear, normDay, carryDay, monthLen, isLeapYear, digitChar]
  have hocc : ∀ he : JsNorm (.valid (⟨1950, 0, 12⟩ : CalDate)),
      generateOccurrences ⟨"income", "Old", 10, "1000-01-01", "single"⟩
        (.valid ⟨1950, 0, 12⟩) he = [⟨1000, 0, 1⟩] := by
    intro he
    rw [generateOccurrences_valid _ _ _ ⟨1000, 0, 1⟩ hpt,
      occLoop_single_rule _ _ _ _ _ (by simp [frequencySteps]),
      if_pos (by decide)]
  have hr10 : round2 ((0 : ℚ) + 10) = 10 := by
    rw [zero_add]
    exact round2_eq_self 10 ⟨1000, by norm_num⟩
  have hphase : ∀ he : JsNorm (.valid (⟨1950, 0, 12⟩ : CalDate)),
      phase1 (.valid ⟨1950, 0, 10⟩) (.valid ⟨1950, 0, 12⟩) he 0
        [⟨"income", "Old", 10, "1000-01-01", "single"⟩] = ⟨10, [], []⟩ := by
    intro he
    unfold phase1
    rw [List.foldl_cons, List.foldl_nil]
    unfold applyTxn
    rw [hocc he, List.foldl_cons, List.foldl_nil]
    unfold applyOcc
    rw [if_pos (show jsLt (.valid ⟨1000, 0, 1⟩) (.valid ⟨1950, 0, 10⟩)
      from by decide)]
    show (⟨round2 ((0 : ℚ) +
        (if ("income" : String) = "income" then (10 : ℚ) else -(10 : ℚ))),
      [], []⟩ : LedgerState) = ⟨10, [], []⟩
    rw [if_pos rfl, hr10]
  refine ⟨by decide, by decide, by decide, by decide, ?_, ?_, by norm_num⟩
  · rw [computeLedger_def]
    simp only [hps, hpe, hphase]
    rw [ledgerLoop_true _ _ _ _ _ _ _ _
        (show jsLe (.valid ⟨1950, 0, 10⟩) (.valid ⟨1950, 0, 12⟩) from
          by decide),
      List.head?_cons, Option.map_some', dayEntry_startBal]
    show some (round2 10) = some 10
    rw [round2_eq_self 10 ⟨1000, by norm_num⟩]
  · unfold preWindowBalance
    rw [List.foldl_cons, List.foldl_nil]
    have hocc2 : ∀ he : JsNorm (.valid (⟨50, 0, 12⟩ : CalDate)),
        generateOccurrences ⟨"income", "Old", 10, "1000-01-01", "single"⟩
          (.valid ⟨50, 0, 12⟩) he = [] := by
      intro he
      rw [generateOccurrences_valid _ _ _ ⟨1000, 0, 1⟩ hpt,
        occLoop_single_rule _ _ _ _ _ (by simp [frequencySteps]),
        if_neg (by decide)]
    rw [hocc2, List.foldl_nil]
    exact round2_zero

/-- C6, amended (window bounds with years at least 100, below which the
source's `Date.UTC` round-trip applies MakeFullYear and shifts the
window): occurrences strictly before the window start are folded
(signed, cent-rounded per fold) only into the opening balance of the
first window day — the first entry's starting balance is the
cent-rounding of exactly that pre-window fold — while every entry's
expense list and income total are built solely from the transactions
with an occurrence on that very entry's date (a date inside the
window), so a pre-window occurrence never appears in any expenses list
and never contributes to any totalIncome. -/
theorem c6_prewindow_folding (cmp : String → String → Int) (ws we : CalDate)
    (bal : ℚ) (txns : List Txn) (hws : Normalized ws) (hwe : Normalized we)
    (hys : 100 ≤ ws.year) (hye : 100 ≤ we.year) :
    (∀ entry0, (computeLedger cmp ws we bal txns).head? = some entry0 →
        entry0.startingBalance =
          round2 (preWindowBalance (.valid ws) (.valid we) hwe bal txns)) ∧
    (∀ entry ∈ computeLedger cmp ws we bal txns,
        entry.totalIncome =
          round2 (((txns.filter (fun t => decide (t.type = "income" ∧
              entry.date ∈ generateOccurrences t (.valid we) hwe))).map
            (fun t => t.amount)).sum)) ∧
    (∀ entry ∈ computeLedger cmp ws we bal txns,
        entry.expenses =
          sortByName cmp
            ((txns.filter (fun t => decide (t.type ≠ "income" ∧
                entry.date ∈ generateOccurrences t (.valid we) hwe))).map
              (fun t => (t.name, t.amount)))) := by
  rw [computeLedger_eq cmp ws we hws hwe hys hye bal txns]
  refine ⟨?_, ?_, ?_⟩
  · intro entry0 h0
    rw [ledgerLoop_head_startBal cmp (.valid we) hwe _ _ _ _ _ entry0
        (Option.mem_def.mpr h0),
      phase1_balance]
  · intro entry hm
    obtain ⟨⟨c0, hc0, hle0⟩, hle, b2, hshape⟩ :=
      ledgerLoop_mem cmp (.valid we) hwe _ _ _ _ _ entry hm
    injection hc0 with hc0
    subst hc0
    have hk1 : ¬ jsLt (.valid entry.date) (.valid ws) :=
      not_lexLt_of_lexLe _ _ hle0
    have hti : entry.totalIncome =
        round2 (((mapGet (phase1 (.valid ws) (.valid we) hwe bal
          txns).dailyIncome entry.date).map (fun t => t.amount)).sum) := by
      conv =>
        lhs
        rw [hshape]
      rw [dayEntry_totalIncome]
    rw [hti, phase1_income_get (.valid ws) (.valid we) hwe bal txns
      entry.date hk1 hle0 hle]
  · intro entry hm
    obtain ⟨⟨c0, hc0, hle0⟩, hle, b2, hshape⟩ :=
      ledgerLoop_mem cmp (.valid we) hwe _ _ _ _ _ entry hm
    injection hc0 with hc0
    subst hc0
    have hk1 : ¬ jsLt (.valid entry.date) (.valid ws) :=
      not_lexLt_of_lexLe _ _ hle0
    have hex : entry.expenses =
        sortByName cmp ((mapGet (phase1 (.valid ws) (.valid we) hwe bal
          txns).dailyExpenses entry.date).map (fun t => (t.name, t.amount))) := by
      conv =>
        lhs
        rw [hshape]
      rw [dayEntry_expenses]
    rw [hex, phase1_expense_get (.valid ws) (.valid we) hwe bal txns
      entry.date hk1 hle0 hle]

theorem c6_witness :
    Normalized ⟨2024, 0, 10⟩ ∧ Normalized ⟨2024, 0, 12⟩ ∧
    ((∀ entry0,
        (computeLedger (fun _ _ => 0) ⟨2024, 0, 10⟩ ⟨2024, 0, 12⟩ 100
          [⟨"expense", "Gym", 50, "2024-01-05", "single"⟩]).head? =
            some entry0 →
        entry0.startingBalance =
          round2 (preWindowBalance (.valid ⟨2024, 0, 10⟩)
            (.valid ⟨2024, 0, 12⟩) (by decide) 100
            [⟨"expense", "Gym", 50, "2024-01-05", "single"⟩])) ∧
      (∀ entry ∈ computeLedger (fun _ _ => 0) ⟨2024, 0, 10⟩ ⟨2024, 0, 12⟩ 100
          [⟨"expense", "Gym", 50, "2024-01-05", "single"⟩],
        entry.totalIncome =
          round2 ((([(⟨"expense", "Gym", 50, "2024-01-05", "single"⟩ : Txn)].filter
              (fun t => decide (t.type = "income" ∧
                entry.date ∈ generateOccurrences t (.valid ⟨2024, 0, 12⟩)
                  (by decide)))).map (fun t => t.amount)).sum)) ∧
      (∀ entry ∈ computeLedger (fun _ _ => 0) ⟨2024, 0, 10⟩ ⟨2024, 0, 12⟩ 100
          [⟨"expense", "Gym", 50, "2024-01-05", "single"⟩],
        entry.expenses =
          sortByName (fun _ _ => 0)
            (([(⟨"expense", "Gym", 50, "2024-01-05", "single"⟩ : Txn)].filter
              (fun t => decide (t.type ≠ "income" ∧
                entry.date ∈ generateOccurrences t (.valid ⟨2024, 0, 12⟩)
                  (by decide)))).map (fun t => (t.name, t.amount))))) :=
  ⟨by decide, by decide,
    c6_prewindow_folding (fun _ _ => 0) ⟨2024, 0, 10⟩ ⟨2024, 0, 12⟩ 100
      [⟨"expense", "Gym", 50, "2024-01-05", "single"⟩]
      (by decide) (by decide) (by decide) (by decide)⟩

/-- C8, counterexample to the original claim: with
windowStart = year-100 Jan 1 strictly after windowEnd = year-99 Jan 1
(both normalized, non-negative years), `computeLedger` does *not*
return the empty sequence: the round-trip of windowEnd through
`Date.UTC` applies MakeFullYear, mapping year 99 to 1999, so the day
loop's guard compares year 100 against 1999 and the loop runs. -/
theorem c8_counterexample :
    Normalized ⟨100, 0, 1⟩ ∧ Normalized ⟨99, 0, 1⟩ ∧
    (0 : Int) ≤ (⟨99, 0, 1⟩ : CalDate).year ∧
    lexLt ⟨99, 0, 1⟩ ⟨100, 0, 1⟩ ∧
    computeLedger (fun _ _ => 0) ⟨100, 0, 1⟩ ⟨99, 0, 1⟩ 0 [] ≠ [] := by
  have h100 : natToChars (Int.toNat 100) = ['1', '0', '0'] := by
    rw [natToChars, if_neg (by omega), natToChars, if_neg (by omega),
      natToChars, if_pos (by omega)]
    decide
  have h99 : natToChars (Int.toNat 99) = ['9', '9'] := by
    rw [natToChars, if_neg (by omega), natToChars, if_pos (by omega)]
    decide
  have h1 : natToChars 1 = ['1'] := by
    rw [natToChars, if_pos (by omega)]
    decide
  have hps : (parseDateInput (toDateInputValue ⟨100, 0, 1⟩)).getD
      (.valid epochDate) = .valid ⟨100, 0, 1⟩ := by
    have hstr : toDateInputValue ⟨100, 0, 1⟩ = "100-01-01" := by
      simp only [toDateInputValue, intToChars, pad2]
      norm_num [h100, h1]
    rw [hstr]
    have hp : parseDateInput "100-01-01" = some (.valid ⟨100, 0, 1⟩) := by
      simp [parseDateInput, splitDash, numValue, digitsVal, charVal, isDigitCh,
        makeFullYear, normDay, carryDay, monthLen, isLeapYear, digitChar]
    rw [hp]
    rfl
  have hpe : (parseDateInput (toDateInputValue ⟨99, 0, 1⟩)).getD
      (.valid epochDate) = .valid ⟨1999, 0, 1⟩ := by
    have hstr : toDateInputValue ⟨99, 0, 1⟩ = "99-01-01" := by
      simp only [toDateInputValue, intToChars, pad2]
      norm_num [h99, h1]
    rw [hstr]
    have hp : parseDateInput "99-01-01" = some (.valid ⟨1999, 0, 1⟩) := by
      simp [parseDateInput, splitDash, numValue, digitsVal, charVal, isDigitCh,
        makeFullYear, normDay, carryDay, monthLen, isLeapYear, digitChar]
    rw [hp]
    rfl
  refine ⟨by decide, by decide, by decide, by decide, ?_⟩
  rw [computeLedger_def]
  simp only [hps, hpe]
  rw [ledgerLoop_true _ _ _ _ _ _ _ _
      (show jsLe (.valid ⟨100, 0, 1⟩) (.valid ⟨1999, 0, 1⟩) from by decide)]
  exact List.cons_ne_nil _ _

/-- C8, amended (window bounds with years at least 100, below which the
source's `Date.UTC` round-trip applies MakeFullYear and can un-invert
the window): when windowStart is strictly after windowEnd (the
documented precondition violated), `computeLedger` returns the empty
sequence of entries, because the day loop's guard `current <= endUTC`
is false at once; no error path exists. -/
theorem c8_inverted_window_empty (cmp : String → String → Int)
    (ws we : CalDate) (bal : ℚ) (txns : List Txn) (hws : Normalized ws)
    (hwe : Normalized we) (hys : 100 ≤ ws.year) (hye : 100 ≤ we.year)
    (hlt : lexLt we ws) :
    computeLedger cmp ws we bal txns = [] := by
  rw [computeLedger_eq cmp ws we hws hwe hys hye bal txns]
  exact ledgerLoop_false _ _ _ _ _ _ _ _
    (show ¬ jsLe (.valid ws) (.valid we) from
      fun hcon => lexLt_not_le we ws hlt hcon)

theorem c8_witness :
    Normalized ⟨2024, 0, 5⟩ ∧ Normalized ⟨2024, 0, 2⟩ ∧
    lexLt ⟨2024, 0, 2⟩ ⟨2024, 0, 5⟩ ∧
    computeLedger (fun _ _ => 0) ⟨2024, 0, 5⟩ ⟨2024, 0, 2⟩ 10
      [⟨"income", "Pay", 5, "2024-01-01", "weekly"⟩] = [] :=
  ⟨by decide, by decide, by decide,
    c8_inverted_window_empty (fun _ _ => 0) ⟨2024, 0, 5⟩ ⟨2024, 0, 2⟩ 10 _
      (by decide) (by decide) (by decide) (by decide) (by decide)⟩

/-- C9: a transaction whose startDate does not parse to a valid calendar
date (a `null` parse from a wrong part count, or a NaN component making
the date invalid) yields the empty occurrence sequence with no error,
and contributes nothing to any ledger: removing it from the transaction
list leaves `computeLedger`'s output unchanged. -/
theorem c9_unparseable_excluded (txn : Txn)
    (hp : ∀ c : CalDate, parseDateInput txn.startDate ≠ some (.valid c)) :
    (∀ (e : JsDate) (he : JsNorm e), generateOccurrences txn e he = []) ∧
    (∀ (cmp : String → String → Int) (ws we : CalDate) (bal : ℚ)
        (l1 l2 : List Txn),
      computeLedger cmp ws we bal (l1 ++ txn :: l2) =
        computeLedger cmp ws we bal (l1 ++ l2)) := by
  have hocc : ∀ (e : JsDate) (he : JsNorm e), generateOccurrences txn e he = [] :=
    fun e he => generateOccurrences_bad txn e he hp
  refine ⟨hocc, ?_⟩
  intro cmp ws we bal l1 l2
  have hphase : ∀ (s e : JsDate) (he : JsNorm e) (b : ℚ),
      phase1 s e he b (l1 ++ txn :: l2) = phase1 s e he b (l1 ++ l2) := by
    intro s e he b
    unfold phase1
    rw [List.foldl_append, List.foldl_append, List.foldl_cons]
    have hskip : applyTxn s e he (List.foldl (applyTxn s e he) ⟨b, [], []⟩ l1)
        txn = List.foldl (applyTxn s e he) ⟨b, [], []⟩ l1 := by
      unfold applyTxn
      rw [hocc e he]
      rfl
    rw [hskip]
  unfold computeLedger
  simp only [hphase]

theorem c9_witness :
    (∀ c : CalDate,
      parseDateInput (⟨"income", "Bad", 5, "2024-ab-05", "single"⟩ : Txn).startDate ≠
        some (.valid c)) ∧
    generateOccurrences ⟨"income", "Bad", 5, "2024-ab-05", "single"⟩
      (.valid ⟨2024, 0, 1⟩) (by decide) = [] ∧
    computeLedger (fun _ _ => 0) ⟨2024, 0, 1⟩ ⟨2024, 0, 2⟩ 0
        ([] ++ (⟨"income", "Bad", 5, "2024-ab-05", "single"⟩ : Txn) :: []) =
      computeLedger (fun _ _ => 0) ⟨2024, 0, 1⟩ ⟨2024, 0, 2⟩ 0 ([] ++ []) := by
  have hp : ∀ c : CalDate,
      parseDateInput (⟨"income", "Bad", 5, "2024-ab-05", "single"⟩ : Txn).startDate ≠
        some (.valid c) := by
    intro c h
    have hinv : parseDateInput "2024-ab-05" = some .invalid := by
      simp [parseDateInput, splitDash, numValue, isDigitCh]
    rw [hinv] at h
    simp at h
  exact ⟨hp, (c9_unparseable_excluded _ hp).1 _ _,
    (c9_unparseable_excluded _ hp).2 _ _ _ _ _ _⟩
